import Mathlib

/-!
# A verification development for `queue.c`

The queue of `queue.c` is a singly linked list of heap-allocated nodes with a
cached head pointer, tail pointer and element count.  The embedding keeps the
pointer structure: a node heap maps addresses to nodes, `NULL` is `none`, and
every dereference of `NULL` or of a node that is not live is a `fault`.
Loops and the recursion of `mergeSort` are driven by a fuel argument; running
out of fuel is reported as `timeout`, never confused with a fault.
-/

namespace QueueC

/-- Outcome of running a piece of the program. -/
inductive Res (α : Type) where
  | ok : α → Res α
  | fault : Res α
  | timeout : Res α

/-- A C string: the bytes before the terminating NUL. -/
abbrev CStr := List Nat

/-- A pointer to a list element: `none` is `NULL`. -/
abbrev Ptr := Option Nat

/-- Modelled from the spec: the declaration of `list_ele_t` lives in `queue.h`,
which is not part of the sources; a node holds one owned string value and a
reference to the next node (or none). -/
structure list_ele_t where
  value : CStr
  next : Ptr
  deriving DecidableEq, Repr

/-- Modelled from the spec: the declaration of `queue_t` lives in `queue.h`,
which is not part of the sources; a queue holds a reference to the head node,
a reference to the tail node and a count of elements.  The count is an
unbounded natural number here. -/
structure queue_t where
  head : Ptr
  tail : Ptr
  size : Nat
  deriving DecidableEq, Repr

/-- The node heap: the live list elements by address. -/
abbrev Heap := Nat → Option list_ele_t

/-- Program state: the node heap, the allocation frontier (every address at or
above `brk` has never been handed out) and the queue object the handle `q`
points to (`none` when the handle is `NULL`). -/
structure State where
  cell : Heap
  brk : Nat
  q : Option queue_t

/-- Heap with the node at `a` replaced. -/
def store (c : Heap) (a : Nat) (n : list_ele_t) : Heap :=
  fun x => if x = a then some n else c x

/-- Heap with the node at `a` released. -/
def release (c : Heap) (a : Nat) : Heap :=
  fun x => if x = a then none else c x

/-- Dereference `p`: reading through `NULL` or a dead address is a fault. -/
def load (c : Heap) (p : Ptr) : Res list_ele_t :=
  match p with
  | none => Res.fault
  | some a =>
    match c a with
    | none => Res.fault
    | some n => Res.ok n

/-- The assignment `p->next = v`. -/
def setNext (c : Heap) (p : Ptr) (v : Ptr) : Res Heap :=
  match p with
  | none => Res.fault
  | some a =>
    match c a with
    | none => Res.fault
    | some n => Res.ok (store c a { n with next := v })

/-- The libc function `strlen`. -/
def strlen (s : CStr) : Nat := s.length

/-- The libc function `strcmp` on two strings, bytes compared as unsigned
values; only the sign of the result is meaningful, as in the C standard. -/
def strcmp : CStr → CStr → Int
  | [], [] => 0
  | [], _ :: _ => -1
  | _ :: _, [] => 1
  | a :: as, b :: bs => if a = b then strcmp as bs else if a < b then -1 else 1

/-- What `snprintf(dst, n, "%s", v)` leaves at the start of `dst`: nothing when
`n = 0`, otherwise at most `n - 1` bytes of `v` followed by a NUL. -/
def snprintfBytes (n : Nat) (v : CStr) : List Nat :=
  if n = 0 then [] else v.take (n - 1) ++ [0]

/-- Overwrite the first bytes of `buf` by `bytes`; writing past the end of the
buffer is a fault. -/
def writeAt0 (buf : List Nat) (bytes : List Nat) : Res (List Nat) :=
  if bytes.length ≤ buf.length then Res.ok (bytes ++ buf.drop bytes.length) else Res.fault

/-- The string a buffer holds: its bytes up to the first NUL. -/
def cstrOf (buf : List Nat) : CStr := buf.takeWhile (fun b => b ≠ 0)

/-- `q_new`: an empty queue, or `NULL` when the container cannot be allocated. -/
def q_new (c : Heap) (brk : Nat) (allocOk : Bool) : State :=
  if allocOk then { cell := c, brk := brk, q := some { head := none, tail := none, size := 0 } }
  else { cell := c, brk := brk, q := none }

/-- `q_insert_head`.  `nodeOk` and `valOk` say whether the two calls of `malloc`
succeed; a fresh node is placed at the allocation frontier.  `w` is the width of
`size_t`. -/
def q_insert_head (w : Nat) (st : State) (s : CStr) (nodeOk valOk : Bool) : Res (Bool × State) :=
  match st.q with
  | none => Res.ok (false, st)
  | some q =>
    if !nodeOk then Res.ok (false, st)
    else
      let newh := st.brk
      let strSize := (strlen s + 1) % 2 ^ w
      -- a failed malloc of the value frees the node again: nothing has changed
      if !valOk then Res.ok (false, st)
      else
        -- snprintf(newh->value, strSize, "%s", s);
        let v := cstrOf (snprintfBytes strSize s)
        -- q->size++;
        let q1 := { q with size := q.size + 1 }
        -- if (!q->tail) q->tail = newh;
        let q2 := if q1.tail = none then { q1 with tail := some newh } else q1
        -- newh->next = q->head; q->head = newh;
        let c1 := store st.cell newh { value := v, next := q2.head }
        let q3 := { q2 with head := some newh }
        Res.ok (true, { cell := c1, brk := st.brk + 1, q := some q3 })

/-- `q_insert_tail`, with the same allocation model as `q_insert_head`. -/
def q_insert_tail (w : Nat) (st : State) (s : CStr) (nodeOk valOk : Bool) : Res (Bool × State) :=
  match st.q with
  | none => Res.ok (false, st)
  | some q =>
    if !nodeOk then Res.ok (false, st)
    else
      let newt := st.brk
      let strSize := (strlen s + 1) % 2 ^ w
      if !valOk then Res.ok (false, st)
      else
        let v := cstrOf (snprintfBytes strSize s)
        -- q->size++;
        let q1 := { q with size := q.size + 1 }
        if q1.tail = none then
          -- q->tail = newt; newt->next = q->head; q->head = newt;
          let q2 := { q1 with tail := some newt }
          let c1 := store st.cell newt { value := v, next := q2.head }
          let q3 := { q2 with head := some newt }
          Res.ok (true, { cell := c1, brk := st.brk + 1, q := some q3 })
        else
          let c0 := store st.cell newt { value := v, next := none }
          -- q->tail->next = newt;
          match setNext c0 q1.tail (some newt) with
          | Res.fault => Res.fault
          | Res.timeout => Res.timeout
          | Res.ok c1 =>
            -- q->tail = newt; q->tail->next = NULL;
            let q2 := { q1 with tail := some newt }
            match setNext c1 q2.tail none with
            | Res.fault => Res.fault
            | Res.timeout => Res.timeout
            | Res.ok c2 => Res.ok (true, { cell := c2, brk := st.brk + 1, q := some q2 })

/-- `q_remove_head`.  `sp` is the caller's buffer (`none` for `NULL`) with its
real extent, `bufsize` the capacity the caller passes; `w` is the width of
`size_t`, in which `bufsize - 1` and `spSize + 1` wrap around. -/
def q_remove_head (w : Nat) (st : State) (sp : Option (List Nat)) (bufsize : Nat) :
    Res (Bool × State × Option (List Nat)) :=
  match st.q with
  | none => Res.ok (false, st, sp)
  | some q =>
    if q.size = 0 then Res.ok (false, st, sp)
    else
      match q.head with
      | none => Res.fault
      | some a =>
        match st.cell a with
        | none => Res.fault
        | some rmvtarget =>
          -- q->head = q->head->next;
          let q1 := { q with head := rmvtarget.next }
          -- free(rmvtarget->value); free(rmvtarget); q->size--;  (q->tail is not touched)
          let st1 : State :=
            { cell := release st.cell a, brk := st.brk, q := some { q1 with size := q1.size - 1 } }
          match sp with
          | none => Res.ok (true, st1, none)
          | some buf =>
            -- size_t slen = strlen(rmvtarget->value) + 1;
            let slen := (strlen rmvtarget.value + 1) % 2 ^ w
            -- size_t spSize = (bufsize > slen) ? slen : bufsize - 1;
            let spSize := if bufsize > slen then slen else (bufsize + 2 ^ w - 1) % 2 ^ w
            let n := (spSize + 1) % 2 ^ w
            -- memset(sp, 0, spSize + 1);
            match writeAt0 buf (List.replicate n 0) with
            | Res.fault => Res.fault
            | Res.timeout => Res.timeout
            | Res.ok buf1 =>
              -- snprintf(sp, spSize + 1, "%s", rmvtarget->value);
              match writeAt0 buf1 (snprintfBytes n rmvtarget.value) with
              | Res.fault => Res.fault
              | Res.timeout => Res.timeout
              | Res.ok buf2 => Res.ok (true, st1, some buf2)

/-- `q_size`. -/
def q_size (st : State) : Nat :=
  match st.q with
  | none => 0
  | some q => q.size

/-- The loop of `q_reverse`: a `do ... while (current)` whose body turns the
link of `current` back to `prev` and leaves when `next` is `NULL`. -/
def reverseLoop : Nat → Heap → Ptr → Ptr → Ptr → Res Heap
  | 0, _, _, _, _ => Res.timeout
  | fuel + 1, c, prev, current, next =>
    -- current->next = prev;
    match setNext c current prev with
    | Res.fault => Res.fault
    | Res.timeout => Res.timeout
    | Res.ok c1 =>
      -- if (!next) break;
      match next with
      | none => Res.ok c1
      | some nx =>
        -- prev = current; current = next; next = next->next;
        match load c1 (some nx) with
        | Res.fault => Res.fault
        | Res.timeout => Res.timeout
        | Res.ok nn =>
          -- while (current), where current is now the old next
          if (some nx : Ptr) = none then Res.ok c1
          else reverseLoop fuel c1 current (some nx) nn.next

/-- `q_reverse`. -/
def q_reverse (fuel : Nat) (st : State) : Res State :=
  match st.q with
  | none => Res.ok st
  | some q =>
    if q.size ≤ 1 then Res.ok st
    else
      let prev := q.head
      match load st.cell q.head with
      | Res.fault => Res.fault
      | Res.timeout => Res.timeout
      | Res.ok hn =>
        let current := hn.next
        match load st.cell hn.next with
        | Res.fault => Res.fault
        | Res.timeout => Res.timeout
        | Res.ok cn =>
          let next := cn.next
          match reverseLoop fuel st.cell prev current next with
          | Res.fault => Res.fault
          | Res.timeout => Res.timeout
          | Res.ok c1 =>
            let tmp := q.head
            let q1 := { q with head := q.tail }
            let q2 := { q1 with tail := tmp }
            match setNext c1 q2.tail none with
            | Res.fault => Res.fault
            | Res.timeout => Res.timeout
            | Res.ok c2 => Res.ok { cell := c2, brk := st.brk, q := some q2 }

/-- The walk `while (p->next) p = p->next;` of `merge`, returning the node it
stops at. -/
def walkLast : Nat → Heap → Ptr → Res Ptr
  | 0, _, _ => Res.timeout
  | fuel + 1, c, p =>
    match load c p with
    | Res.fault => Res.fault
    | Res.timeout => Res.timeout
    | Res.ok n =>
      match n.next with
      | none => Res.ok p
      | some b => walkLast fuel c (some b)

/-- The assignment `q->tail = p`; a fault when the handle is `NULL`. -/
def setTail (st : State) (p : Ptr) : Res State :=
  match st.q with
  | none => Res.fault
  | some q => Res.ok { st with q := some { q with tail := p } }

/-- The part of `merge` from `while (headA && headB)` to the end: the
comparison loop, then the splice of the remaining list and the walk to its
last node, which becomes `q->tail`. -/
def mergeLoop : Nat → State → Ptr → Ptr → Ptr → Res State
  | 0, _, _, _, _ => Res.timeout
  | fuel + 1, st, tmp, headA, headB =>
    match headA, headB with
    | some a, some b =>
      match load st.cell (some b) with
      | Res.fault => Res.fault
      | Res.timeout => Res.timeout
      | Res.ok nb =>
        match load st.cell (some a) with
        | Res.fault => Res.fault
        | Res.timeout => Res.timeout
        | Res.ok na =>
          if strcmp nb.value na.value > 0 then
            match setNext st.cell tmp (some a) with
            | Res.fault => Res.fault
            | Res.timeout => Res.timeout
            | Res.ok c1 =>
              match load c1 tmp with
              | Res.fault => Res.fault
              | Res.timeout => Res.timeout
              | Res.ok nt =>
                match load c1 (some a) with
                | Res.fault => Res.fault
                | Res.timeout => Res.timeout
                | Res.ok na1 => mergeLoop fuel { st with cell := c1 } nt.next na1.next (some b)
          else
            match setNext st.cell tmp (some b) with
            | Res.fault => Res.fault
            | Res.timeout => Res.timeout
            | Res.ok c1 =>
              match load c1 tmp with
              | Res.fault => Res.fault
              | Res.timeout => Res.timeout
              | Res.ok nt =>
                match load c1 (some b) with
                | Res.fault => Res.fault
                | Res.timeout => Res.timeout
                | Res.ok nb1 => mergeLoop fuel { st with cell := c1 } nt.next (some a) nb1.next
    | some a, none =>
      match setNext st.cell tmp (some a) with
      | Res.fault => Res.fault
      | Res.timeout => Res.timeout
      | Res.ok c1 =>
        match walkLast fuel c1 (some a) with
        | Res.fault => Res.fault
        | Res.timeout => Res.timeout
        | Res.ok last => setTail { st with cell := c1 } last
    | none, some b =>
      match setNext st.cell tmp (some b) with
      | Res.fault => Res.fault
      | Res.timeout => Res.timeout
      | Res.ok c1 =>
        match walkLast fuel c1 (some b) with
        | Res.fault => Res.fault
        | Res.timeout => Res.timeout
        | Res.ok last => setTail { st with cell := c1 } last
    | none, none => Res.ok st

/-- `merge`: the first comparison picks the head of the result, `mergeLoop`
does the rest. -/
def merge (fuel : Nat) (st : State) (headA headB : Ptr) : Res (State × Ptr) :=
  match load st.cell headB with
  | Res.fault => Res.fault
  | Res.timeout => Res.timeout
  | Res.ok nb =>
    match load st.cell headA with
    | Res.fault => Res.fault
    | Res.timeout => Res.timeout
    | Res.ok na =>
      if strcmp nb.value na.value > 0 then
        match mergeLoop fuel st headA na.next headB with
        | Res.fault => Res.fault
        | Res.timeout => Res.timeout
        | Res.ok st1 => Res.ok (st1, headA)
      else
        match mergeLoop fuel st headB headA nb.next with
        | Res.fault => Res.fault
        | Res.timeout => Res.timeout
        | Res.ok st1 => Res.ok (st1, headB)

/-- The slow/fast walk of `mergeSort`, returning `slow` when it stops. -/
def splitLoop : Nat → Heap → Ptr → Ptr → Res Ptr
  | 0, _, _, _ => Res.timeout
  | fuel + 1, c, fast, slow =>
    match fast with
    | none => Res.ok slow
    | some f =>
      match load c (some f) with
      | Res.fault => Res.fault
      | Res.timeout => Res.timeout
      | Res.ok fn =>
        match fn.next with
        | none => Res.ok slow
        | some f1 =>
          match load c (some f1) with
          | Res.fault => Res.fault
          | Res.timeout => Res.timeout
          | Res.ok fn1 =>
            match load c slow with
            | Res.fault => Res.fault
            | Res.timeout => Res.timeout
            | Res.ok sn => splitLoop fuel c fn1.next sn.next

/-- `mergeSort`. -/
def mergeSort : Nat → State → Ptr → Res (State × Ptr)
  | 0, _, _ => Res.timeout
  | fuel + 1, st, head =>
    match head with
    | none => Res.ok (st, head)
    | some h =>
      match load st.cell (some h) with
      | Res.fault => Res.fault
      | Res.timeout => Res.timeout
      | Res.ok hn =>
        if hn.next = none then Res.ok (st, head)
        else
          match splitLoop fuel st.cell hn.next head with
          | Res.fault => Res.fault
          | Res.timeout => Res.timeout
          | Res.ok slow =>
            match load st.cell slow with
            | Res.fault => Res.fault
            | Res.timeout => Res.timeout
            | Res.ok sn =>
              let fast := sn.next
              match setNext st.cell slow none with
              | Res.fault => Res.fault
              | Res.timeout => Res.timeout
              | Res.ok c1 =>
                match mergeSort fuel { st with cell := c1 } head with
                | Res.fault => Res.fault
                | Res.timeout => Res.timeout
                | Res.ok (st2, headA) =>
                  match mergeSort fuel st2 fast with
                  | Res.fault => Res.fault
                  | Res.timeout => Res.timeout
                  | Res.ok (st3, headB) => merge fuel st3 headA headB

/-- `q_sort`. -/
def q_sort (fuel : Nat) (st : State) : Res State :=
  match st.q with
  | none => Res.ok st
  | some q =>
    if q.size ≤ 1 then Res.ok st
    else
      match mergeSort fuel st q.head with
      | Res.fault => Res.fault
      | Res.timeout => Res.timeout
      | Res.ok (st1, h) =>
        match st1.q with
        | none => Res.fault
        | some q1 => Res.ok { st1 with q := some { q1 with head := h } }

/-! ## Reading a queue -/

/-- `Seg c p ps r`: following `next` links in `c` from `p` visits exactly the
addresses `ps`, all live, and then arrives at the pointer `r`. -/
def Seg (c : Heap) : Ptr → List Nat → Ptr → Prop
  | p, [], r => p = r
  | p, a :: ps, r => p = some a ∧ ∃ n, c a = some n ∧ Seg c n.next ps r

/-- `Chain c p ps`: following `next` links in `c` from `p` visits exactly the
addresses `ps`, all live, and then reaches `NULL`. -/
def Chain (c : Heap) (p : Ptr) (ps : List Nat) : Prop := Seg c p ps none

instance decSeg (c : Heap) : ∀ (ps : List Nat) (p r : Ptr), Decidable (Seg c p ps r)
  | [], p, r => inferInstanceAs (Decidable (p = r))
  | a :: ps, p, r =>
    match hca : c a with
    | none => isFalse (by
        rintro ⟨_, n, hn, _⟩
        rw [hca] at hn
        exact absurd hn (by simp))
    | some n =>
      match decSeg c ps n.next r with
      | isFalse hno => isFalse (by
          rintro ⟨_, n1, hn1, hrest⟩
          rw [hca] at hn1
          have hnn : n = n1 := Option.some.inj hn1
          subst hnn
          exact hno hrest)
      | isTrue hyes =>
        if hp : p = some a then isTrue ⟨hp, n, hca, hyes⟩
        else isFalse (fun h => hp h.1)

instance decChain (c : Heap) (p : Ptr) (ps : List Nat) : Decidable (Chain c p ps) :=
  decSeg c ps p none

/-- `Relink c c1 S`: the heap `c1` has the same live nodes with the same values
as `c`, and differs from `c` at most in the `next` fields of the nodes in `S`. -/
def Relink (c c1 : Heap) (S : List Nat) : Prop :=
  ∀ a, (c1 a).map (fun n => n.value) = (c a).map (fun n => n.value) ∧ (a ∉ S → c1 a = c a)

/-- The value stored in the node at `a` (empty when the node is not live). -/
def valueAt (c : Heap) (a : Nat) : CStr :=
  match c a with
  | some n => n.value
  | none => []

/-- The `next` field of the node at `a` (`none` when the node is not live). -/
def nextAt (c : Heap) (a : Nat) : Ptr :=
  match c a with
  | some n => n.next
  | none => none

/-- The values of the nodes `ps`, in order. -/
def vals (c : Heap) (ps : List Nat) : List CStr := ps.map (valueAt c)

/-- A well-formed queue whose nodes are, from head to tail, `ps`: the handle is
not `NULL`, the chain from `head` is `ps` and ends in `NULL`, `tail` is its last
node (`NULL` when it is empty) and `size` is its length. -/
def WF (st : State) (ps : List Nat) : Prop :=
  ∃ q, st.q = some q ∧ Chain st.cell q.head ps ∧ q.tail = ps.getLast? ∧ q.size = ps.length

/-- Order of strings used by the sort: `x` is not after `y` byte-wise. -/
def strLe (x y : CStr) : Prop := strcmp x y ≤ 0

instance decStrLe : DecidableRel strLe := fun x y => inferInstanceAs (Decidable (strcmp x y ≤ 0))

/-- One row of `mergeList`: the first list is `a :: as` and `recA` merges `as`
with a second list. -/
def mergeAux (v : Nat → CStr) (a : Nat) (as : List Nat) (recA : List Nat → List Nat) :
    List Nat → List Nat
  | [] => a :: as
  | b :: bs =>
    if strcmp (v b) (v a) > 0 then a :: recA (b :: bs) else b :: mergeAux v a as recA bs

/-- The order in which `merge` links the nodes of list A and list B, `v` giving
the value of each node: at every step the front of A is taken when
`strcmp(B->value, A->value) > 0` and the front of B otherwise; when one list
is used up the rest of the other follows. -/
def mergeList (v : Nat → CStr) : List Nat → List Nat → List Nat
  | [] => fun bs => bs
  | a :: as => mergeAux v a as (mergeList v as)

/-- The `next` field read through the pointer `p` (`none` through `NULL` or a
dead node). -/
def nextOf (c : Heap) (p : Ptr) : Ptr :=
  match p with
  | none => none
  | some a => nextAt c a

/-- The pointer reached from `p` by following `k` next-links. -/
def follow (c : Heap) : Nat → Ptr → Ptr
  | 0, p => p
  | k + 1, p => follow c k (nextOf c p)

/-- A heap holding the given nodes at the addresses `0, 1, 2, ...`. -/
def heapOf (nodes : List list_ele_t) : Heap := fun a => nodes.get? a

/-- A three-element queue holding "b", "a", "b" in the nodes 0, 1, 2. -/
def threeQueue : State :=
  { cell := heapOf [{ value := [98], next := some 1 }, { value := [97], next := some 2 },
      { value := [98], next := none }],
    brk := 3,
    q := some { head := some 0, tail := some 2, size := 3 } }

/-- A two-element queue already in ascending order: "a" then "b". -/
def sortedQueue : State :=
  { cell := heapOf [{ value := [97], next := some 1 }, { value := [98], next := none }],
    brk := 2,
    q := some { head := some 0, tail := some 1, size := 2 } }

/-- The calls a client can make on a queue.  The insertions carry the outcome
of their two allocations, `removeHead` the caller's buffer and capacity. -/
inductive Op where
  | insertHead (s : CStr) (nodeOk valOk : Bool)
  | insertTail (s : CStr) (nodeOk valOk : Bool)
  | removeHead (sp : Option (List Nat)) (bufsize : Nat)
  | reverse
  | sort

/-- One call: its return value (`true` for the functions returning `void`) and
the state it leaves. -/
def step (w fuel : Nat) (st : State) : Op → Res (Bool × State)
  | Op.insertHead s nodeOk valOk => q_insert_head w st s nodeOk valOk
  | Op.insertTail s nodeOk valOk => q_insert_tail w st s nodeOk valOk
  | Op.removeHead sp bufsize =>
    match q_remove_head w st sp bufsize with
    | Res.fault => Res.fault
    | Res.timeout => Res.timeout
    | Res.ok (r, st1, _) => Res.ok (r, st1)
  | Op.reverse =>
    match q_reverse fuel st with
    | Res.fault => Res.fault
    | Res.timeout => Res.timeout
    | Res.ok st1 => Res.ok (true, st1)
  | Op.sort =>
    match q_sort fuel st with
    | Res.fault => Res.fault
    | Res.timeout => Res.timeout
    | Res.ok st1 => Res.ok (true, st1)

/-- A finite sequence of calls, in order; the return values are collected. -/
def runOps (w fuel : Nat) : State → List Op → Res (List Bool × State)
  | st, [] => Res.ok ([], st)
  | st, op :: ops =>
    match step w fuel st op with
    | Res.fault => Res.fault
    | Res.timeout => Res.timeout
    | Res.ok (r, st1) =>
      match runOps w fuel st1 ops with
      | Res.fault => Res.fault
      | Res.timeout => Res.timeout
      | Res.ok (rs, st2) => Res.ok (r :: rs, st2)

/-- The queue invariant of the data model: the count is 0 exactly when the head
is `NULL`, exactly when the tail is `NULL`; and when the count is positive the
tail is reached from the head by following `size - 1` next-links and is a live
node whose `next` is `NULL`.  The `NULL` handle satisfies it vacuously. -/
def Inv (st : State) : Prop :=
  match st.q with
  | none => True
  | some q =>
    (q.size = 0 ↔ q.head = none) ∧ (q.head = none ↔ q.tail = none) ∧
    (0 < q.size → follow st.cell (q.size - 1) q.head = q.tail ∧
      ∃ t n, q.tail = some t ∧ st.cell t = some n ∧ n.next = none)

/-- The number of bytes `q_remove_head` clears with `memset` and hands to
`snprintf` as the size of the output buffer, `spSize + 1`, for a stored string
of length `L` and capacity `bufsize`; `bufsize - 1` and `spSize + 1` are
computed in `size_t`, modulo `2 ^ w`. -/
def spWriteCount (w L bufsize : Nat) : Nat :=
  -- size_t slen = strlen(rmvtarget->value) + 1;
  let slen := (L + 1) % 2 ^ w
  -- size_t spSize = (bufsize > slen) ? slen : bufsize - 1;
  let spSize := if bufsize > slen then slen else (bufsize + 2 ^ w - 1) % 2 ^ w
  (spSize + 1) % 2 ^ w

/-- A one-element queue holding "abc" in node 0. -/
def oneQueue : State :=
  { cell := heapOf [{ value := [97, 98, 99], next := none }],
    brk := 1,
    q := some { head := some 0, tail := some 0, size := 1 } }

/-- An empty queue on an empty heap. -/
def emptyQueue : State := q_new (fun _ => none) 0 true

/-- The bytes of an ASCII text. -/
def bytesOf (s : String) : CStr := s.toList.map Char.toNat

/-- Two separate one-node lists with equal values: node 0 holds "a" (list A) and
node 1 holds "a" (list B). -/
def tiePair : State :=
  { cell := heapOf [{ value := [97], next := none }, { value := [97], next := none }],
    brk := 2,
    q := some { head := some 0, tail := some 1, size := 2 } }

/-- A two-element queue with equal values: node 0 holds "a", then node 1 holds "a". -/
def tieQueue : State :=
  { cell := heapOf [{ value := [97], next := some 1 }, { value := [97], next := none }],
    brk := 2,
    q := some { head := some 0, tail := some 1, size := 2 } }

/-- What a call contributes to the count claimed by the size accounting: `+1`
for an insertion that returned `true`, `-1` for a removal that returned `true`. -/
def opDelta : Op → Bool → Int
  | Op.insertHead _ _ _, true => 1
  | Op.insertTail _ _ _, true => 1
  | Op.removeHead _ _, true => -1
  | _, _ => 0

/-- Successful insertions minus successful removals of a run: the calls `ops`
with their return values `rs`. -/
def netCount : List Op → List Bool → Int
  | op :: ops, r :: rs => opDelta op r + netCount ops rs
  | _, _ => 0

/-- The calls the size accounting speaks of: the two insertions and the removal. -/
def isInsertOrRemove : Op → Bool
  | Op.insertHead _ _ _ => true
  | Op.insertTail _ _ _ => true
  | Op.removeHead _ _ => true
  | _ => false

/-- Insert the strings `xs` at the tail, one call per string in order, every
allocation succeeding; the return values are collected. -/
def insertTails (w : Nat) : State → List CStr → Res (List Bool × State)
  | st, [] => Res.ok ([], st)
  | st, x :: xs =>
    match q_insert_tail w st x true true with
    | Res.fault => Res.fault
    | Res.timeout => Res.timeout
    | Res.ok (r, st1) =>
      match insertTails w st1 xs with
      | Res.fault => Res.fault
      | Res.timeout => Res.timeout
      | Res.ok (rs, st2) => Res.ok (r :: rs, st2)

/-- Insert the strings `xs` at the head, one call per string in order, every
allocation succeeding; the return values are collected. -/
def insertHeads (w : Nat) : State → List CStr → Res (List Bool × State)
  | st, [] => Res.ok ([], st)
  | st, x :: xs =>
    match q_insert_head w st x true true with
    | Res.fault => Res.fault
    | Res.timeout => Res.timeout
    | Res.ok (r, st1) =>
      match insertHeads w st1 xs with
      | Res.fault => Res.fault
      | Res.timeout => Res.timeout
      | Res.ok (rs, st2) => Res.ok (r :: rs, st2)

/-- Call `q_remove_head` `k` times with the same buffer and capacity; each
call contributes its return value and the string the buffer holds afterwards. -/
def removeHeads (w : Nat) : Nat → State → List Nat → Nat → Res (List (Bool × CStr) × State)
  | 0, st, _, _ => Res.ok ([], st)
  | k + 1, st, buf, bufsize =>
    match q_remove_head w st (some buf) bufsize with
    | Res.fault => Res.fault
    | Res.timeout => Res.timeout
    | Res.ok (r, st1, sp1) =>
      let buf1 := sp1.getD buf
      match removeHeads w k st1 buf1 bufsize with
      | Res.fault => Res.fault
      | Res.timeout => Res.timeout
      | Res.ok (rs, st2) => Res.ok ((r, cstrOf buf1) :: rs, st2)

/-! ## Heap and chain lemmas -/

@[simp] theorem store_same (c : Heap) (a : Nat) (n : list_ele_t) : store c a n a = some n := by
  simp [store]

theorem store_other (c : Heap) (a x : Nat) (n : list_ele_t) (h : x ≠ a) :
    store c a n x = c x := by
  simp [store, h]

@[simp] theorem release_same (c : Heap) (a : Nat) : release c a a = none := by
  simp [release]

theorem release_other (c : Heap) (a x : Nat) (h : x ≠ a) : release c a x = c x := by
  simp [release, h]

theorem seg_congr {c c1 : Heap} : ∀ (ps : List Nat) (p r : Ptr),
    (∀ a ∈ ps, c1 a = c a) → Seg c p ps r → Seg c1 p ps r
  | [], _, _, _, h => h
  | a :: ps, p, r, hc, h => by
    obtain ⟨hp, n, hn, hrest⟩ := h
    refine ⟨hp, n, ?_, seg_congr ps _ _ (fun x hx => hc x (List.mem_cons_of_mem _ hx)) hrest⟩
    rw [hc a (List.mem_cons_self _ _)]; exact hn

theorem seg_fun {c : Heap} : ∀ (l1 l2 : List Nat) (p : Ptr),
    Seg c p l1 none → Seg c p l2 none → l1 = l2
  | [], [], _, _, _ => rfl
  | [], b :: l2, p, h1, h2 => by
    have h1' : p = none := h1
    rw [h1'] at h2
    exact absurd h2.1 (by simp)
  | a :: l1, [], p, h1, h2 => by
    have h2' : p = none := h2
    rw [h2'] at h1
    exact absurd h1.1 (by simp)
  | a :: l1, b :: l2, p, h1, h2 => by
    obtain ⟨hp1, n1, hn1, hr1⟩ := h1
    obtain ⟨hp2, n2, hn2, hr2⟩ := h2
    have hab : a = b := by
      rw [hp1] at hp2; exact Option.some.inj hp2
    subst hab
    rw [hn1] at hn2
    have hnn : n1 = n2 := Option.some.inj hn2
    subst hnn
    rw [seg_fun l1 l2 _ hr1 hr2]

theorem seg_append {c : Heap} : ∀ (l1 l2 : List Nat) (p r : Ptr),
    Seg c p (l1 ++ l2) r ↔ ∃ m, Seg c p l1 m ∧ Seg c m l2 r
  | [], l2, p, r => by
    constructor
    · intro h; exact ⟨p, rfl, h⟩
    · rintro ⟨m, hm, h⟩
      have hm' : p = m := hm
      rw [hm']; exact h
  | a :: l1, l2, p, r => by
    constructor
    · rintro ⟨hp, n, hn, hrest⟩
      obtain ⟨m, h1, h2⟩ := (seg_append l1 l2 _ _).1 hrest
      exact ⟨m, ⟨hp, n, hn, h1⟩, h2⟩
    · rintro ⟨m, ⟨hp, n, hn, h1⟩, h2⟩
      exact ⟨hp, n, hn, (seg_append l1 l2 _ _).2 ⟨m, h1, h2⟩⟩

theorem chain_congr {c c1 : Heap} {ps : List Nat} {p : Ptr}
    (hc : ∀ a ∈ ps, c1 a = c a) (h : Chain c p ps) : Chain c1 p ps :=
  seg_congr ps p none hc h

theorem chain_fun {c : Heap} {l1 l2 : List Nat} {p : Ptr}
    (h1 : Chain c p l1) (h2 : Chain c p l2) : l1 = l2 :=
  seg_fun l1 l2 p h1 h2

theorem chain_suffix {c : Heap} : ∀ (l1 : List Nat) {l2 : List Nat} {p : Ptr} {a : Nat},
    Chain c p (l1 ++ a :: l2) → Chain c (some a) (a :: l2)
  | [], _, p, a, h => by
    have hp : p = some a := h.1
    rw [← hp]; exact h
  | _ :: l1, _, _, _, h => by
    obtain ⟨_, n, _, hrest⟩ := h
    exact chain_suffix l1 hrest

theorem chain_nodup {c : Heap} : ∀ {ps : List Nat} {p : Ptr}, Chain c p ps → ps.Nodup
  | [], _, _ => List.nodup_nil
  | a :: ps, p, h => by
    obtain ⟨hp, n, hn, hrest⟩ := h
    refine List.nodup_cons.2 ⟨?_, chain_nodup hrest⟩
    intro hmem
    obtain ⟨l1, l2, hsplit⟩ := List.append_of_mem hmem
    have hsuf : Chain c (some a) (a :: l2) := by
      rw [hsplit] at hrest; exact chain_suffix l1 hrest
    have hfull : Chain c (some a) (a :: ps) := ⟨rfl, n, hn, hrest⟩
    have hEq := chain_fun hsuf hfull
    have hlen := congrArg List.length hEq
    rw [hsplit] at hlen
    simp at hlen
    omega

theorem chain_live {c : Heap} : ∀ {ps : List Nat} {p : Ptr}, Chain c p ps →
    ∀ a ∈ ps, ∃ n, c a = some n
  | [], _, _, a, ha => by simp at ha
  | b :: ps, p, h, a, ha => by
    obtain ⟨_, n, hn, hrest⟩ := h
    rcases List.mem_cons.1 ha with hab | hmem
    · exact ⟨n, by rw [hab]; exact hn⟩
    · exact chain_live hrest a hmem

theorem vals_congr {c c1 : Heap} {ps : List Nat} (hc : ∀ a ∈ ps, c1 a = c a) :
    vals c1 ps = vals c ps := by
  unfold vals
  apply List.map_congr_left
  intro a ha
  simp [valueAt, hc a ha]

/-! ## Strings and the output buffer -/

theorem cstrOf_append_nul (v rest : List Nat) (hv : ∀ b ∈ v, b ≠ 0) :
    cstrOf (v ++ 0 :: rest) = v := by
  unfold cstrOf
  induction v with
  | nil => simp
  | cons b v ih =>
    have hb : b ≠ 0 := hv b (List.mem_cons_self _ _)
    have ih1 := ih (fun x hx => hv x (List.mem_cons_of_mem _ hx))
    rw [List.cons_append, List.takeWhile_cons, ih1]
    simp [hb]

theorem stored_value_eq (w : Nat) (s : CStr) (hs : ∀ b ∈ s, b ≠ 0) (hlen : s.length + 1 < 2 ^ w) :
    cstrOf (snprintfBytes ((strlen s + 1) % 2 ^ w) s) = s := by
  have h1 : (strlen s + 1) % 2 ^ w = s.length + 1 := by
    unfold strlen; exact Nat.mod_eq_of_lt hlen
  rw [h1]
  unfold snprintfBytes
  simp only [Nat.add_sub_cancel, Nat.succ_ne_zero, if_false]
  rw [List.take_of_length_le (Nat.le_refl _)]
  exact cstrOf_append_nul s [] hs

/-- The number of bytes `q_remove_head` clears and writes, `spSize + 1`: the
capacity itself, or the string's length plus two when the capacity is larger. -/
theorem write_count_eq (w L bufsize : Nat) (hpos : 0 < bufsize) (hw : bufsize < 2 ^ w)
    (hL : L + 1 < 2 ^ w) :
    ((if bufsize > (L + 1) % 2 ^ w then (L + 1) % 2 ^ w
        else (bufsize + 2 ^ w - 1) % 2 ^ w) + 1) % 2 ^ w =
      if bufsize > L + 1 then L + 2 else bufsize := by
  rw [Nat.mod_eq_of_lt hL]
  by_cases h : bufsize > L + 1
  · rw [if_pos h, if_pos h]
    exact Nat.mod_eq_of_lt (by omega)
  · rw [if_neg h, if_neg h]
    have h1 : bufsize + 2 ^ w - 1 = (bufsize - 1) + 2 ^ w := by omega
    have h3 : (bufsize - 1) % 2 ^ w = bufsize - 1 := Nat.mod_eq_of_lt (by omega)
    have h2 : bufsize - 1 + 1 = bufsize := by omega
    rw [h1, Nat.add_mod_right, h3, h2]
    exact Nat.mod_eq_of_lt hw

/-- With a positive capacity that the buffer really has, the two writes of
`q_remove_head` fit in the buffer and leave in it the first `bufsize - 1` bytes
of the string, terminated. -/
theorem buffer_writes (w : Nat) (v : CStr) (buf : List Nat) (bufsize : Nat)
    (hv : ∀ b ∈ v, b ≠ 0) (hpos : 0 < bufsize) (hw : bufsize < 2 ^ w)
    (hL : v.length + 1 < 2 ^ w) (hbuf : bufsize ≤ buf.length) :
    ∃ buf1 buf2,
      writeAt0 buf (List.replicate
        (((if bufsize > (strlen v + 1) % 2 ^ w then (strlen v + 1) % 2 ^ w
            else (bufsize + 2 ^ w - 1) % 2 ^ w) + 1) % 2 ^ w) 0) = Res.ok buf1 ∧
      writeAt0 buf1 (snprintfBytes
        (((if bufsize > (strlen v + 1) % 2 ^ w then (strlen v + 1) % 2 ^ w
            else (bufsize + 2 ^ w - 1) % 2 ^ w) + 1) % 2 ^ w) v) = Res.ok buf2 ∧
      buf2.length = buf.length ∧ cstrOf buf2 = v.take (bufsize - 1) := by
  have hn := write_count_eq w v.length bufsize hpos hw hL
  unfold strlen
  generalize ((if bufsize > (v.length + 1) % 2 ^ w then (v.length + 1) % 2 ^ w
      else (bufsize + 2 ^ w - 1) % 2 ^ w) + 1) % 2 ^ w = n at hn
  have hn1 : 1 ≤ n := by rw [hn]; split <;> omega
  have hn2 : n ≤ buf.length := by rw [hn]; split <;> omega
  have htake : v.take (n - 1) = v.take (bufsize - 1) := by
    rw [hn]
    split
    · rw [List.take_of_length_le (by omega), List.take_of_length_le (by omega)]
    · rfl
  have hs : snprintfBytes n v = v.take (n - 1) ++ [0] := by
    unfold snprintfBytes
    rw [if_neg (by omega)]
  have hlen : (v.take (n - 1) ++ [0]).length ≤ n := by
    simp only [List.length_append, List.length_take, List.length_singleton]
    omega
  have hb1 : (List.replicate n 0 ++ buf.drop n).length = buf.length := by
    rw [List.length_append, List.length_replicate, List.length_drop]
    omega
  rw [hs]
  refine ⟨List.replicate n 0 ++ buf.drop n,
    (v.take (n - 1) ++ [0]) ++
      (List.replicate n 0 ++ buf.drop n).drop (v.take (n - 1) ++ [0]).length,
    ?_, ?_, ?_, ?_⟩
  · unfold writeAt0
    simp only [List.length_replicate]
    rw [if_pos hn2]
  · unfold writeAt0
    rw [if_pos (by rw [hb1]; omega)]
  · generalize (v.take (n - 1) ++ [0]) = bytes at hlen
    rw [List.length_append, List.length_drop, hb1]
    omega
  · rw [List.append_assoc, List.singleton_append, ← htake]
    exact cstrOf_append_nul _ _ (fun b hb => hv b (List.mem_of_mem_take hb))

/-! ## Insertion and removal on a well-formed queue -/

theorem chain_snoc {c c2 : Heap} {p : Ptr} {init : List Nat} {t b : Nat} (nt nb : list_ele_t)
    (h : Chain c p (init ++ [t])) (hc : ∀ a ∈ init, c2 a = c a)
    (ht : c2 t = some nt) (htn : nt.next = some b)
    (hb : c2 b = some nb) (hbn : nb.next = none) :
    Chain c2 p (init ++ [t, b]) := by
  obtain ⟨m, h1, h2⟩ := (seg_append init [t] p none).1 h
  refine (seg_append init [t, b] p none).2 ⟨m, seg_congr init p m hc h1, ?_⟩
  have hm : m = some t := h2.1
  exact ⟨hm, nt, ht, by rw [htn]; exact ⟨rfl, nb, hb, by rw [hbn]; rfl⟩⟩

theorem q_insert_head_spec (w : Nat) (st : State) (q : queue_t) (ps : List Nat) (s : CStr)
    (hq : st.q = some q) (hch : Chain st.cell q.head ps) (htl : q.tail = ps.getLast?)
    (hsz : q.size = ps.length) (hfr : ∀ a ∈ ps, a < st.brk)
    (hs : ∀ b ∈ s, b ≠ 0) (hlen : s.length + 1 < 2 ^ w) :
    ∃ st1, q_insert_head w st s true true = Res.ok (true, st1) ∧
      WF st1 (st.brk :: ps) ∧ vals st1.cell (st.brk :: ps) = s :: vals st.cell ps ∧
      st1.brk = st.brk + 1 := by
  have hv := stored_value_eq w s hs hlen
  have hne : ∀ a ∈ ps, a ≠ st.brk := fun a ha => Nat.ne_of_lt (hfr a ha)
  simp only [q_insert_head, hq, hv, Bool.not_true, Bool.false_eq_true, if_false]
  refine ⟨_, rfl, ⟨_, rfl, ?_, ?_, ?_⟩, ?_, rfl⟩
  · refine ⟨rfl, _, store_same _ _ _, ?_⟩
    have hhead : (if q.tail = none then
        ({ head := q.head, tail := some st.brk, size := q.size + 1 } : queue_t)
        else { head := q.head, tail := q.tail, size := q.size + 1 }).head = q.head := by
      split <;> rfl
    simp only [hhead]
    exact chain_congr (fun a ha => store_other _ _ _ _ (hne a ha)) hch
  · cases ps with
    | nil => simp [htl]
    | cons a ps =>
      have : q.tail ≠ none := by rw [htl]; simp [List.getLast?_cons_cons, List.getLast?]
      simp only [this, if_false, htl]
      simp [List.getLast?_cons_cons]
  · split <;> simp [hsz]
  · unfold vals
    rw [List.map_cons]
    congr 1
    · simp [valueAt]
    · apply List.map_congr_left
      intro a ha
      simp [valueAt, store_other _ _ _ _ (hne a ha)]

theorem q_insert_tail_spec (w : Nat) (st : State) (q : queue_t) (ps : List Nat) (s : CStr)
    (hq : st.q = some q) (hch : Chain st.cell q.head ps) (htl : q.tail = ps.getLast?)
    (hsz : q.size = ps.length) (hfr : ∀ a ∈ ps, a < st.brk)
    (hs : ∀ b ∈ s, b ≠ 0) (hlen : s.length + 1 < 2 ^ w) :
    ∃ st1, q_insert_tail w st s true true = Res.ok (true, st1) ∧
      WF st1 (ps ++ [st.brk]) ∧ vals st1.cell (ps ++ [st.brk]) = vals st.cell ps ++ [s] ∧
      st1.brk = st.brk + 1 := by
  have hv := stored_value_eq w s hs hlen
  have hne : ∀ a ∈ ps, a ≠ st.brk := fun a ha => Nat.ne_of_lt (hfr a ha)
  rcases List.eq_nil_or_concat ps with hnil | ⟨init, t, hps⟩
  · subst hnil
    have hh : q.head = none := hch
    have ht : q.tail = none := by rw [htl]; rfl
    simp only [q_insert_tail, hq, hv, ht, hh, Bool.not_true, Bool.false_eq_true, if_false, if_true]
    refine ⟨_, rfl, ⟨_, rfl, ?_, ?_, ?_⟩, ?_, rfl⟩
    · exact ⟨rfl, _, store_same _ _ _, rfl⟩
    · rfl
    · simp [hsz]
    · simp [vals, valueAt]
  · rw [List.concat_eq_append] at hps
    subst hps
    have ht : q.tail = some t := by rw [htl]; simp
    have hnd : (init ++ [t]).Nodup := chain_nodup hch
    have htni : t ∉ init := by
      intro hmem
      have := List.nodup_append.1 hnd
      exact this.2.2 hmem (List.mem_singleton_self t) 
    have htb : t ≠ st.brk := hne t (by simp)
    obtain ⟨nt, hnt⟩ := chain_live hch t (by simp)
    have hc0t : store st.cell st.brk { value := s, next := none } t = some nt := by
      rw [store_other _ _ _ _ htb]; exact hnt
    have hc1b : store (store st.cell st.brk { value := s, next := none }) t
        { nt with next := some st.brk } st.brk = some { value := s, next := none } := by
      rw [store_other _ _ _ _ (Ne.symm htb)]; exact store_same _ _ _
    simp only [q_insert_tail, hq, hv, ht, Bool.not_true, Bool.false_eq_true, if_false,
      setNext, hc0t, hc1b, reduceCtorEq]
    refine ⟨_, rfl, ⟨_, rfl, ?_, ?_, ?_⟩, ?_, rfl⟩
    · have hgoal : Chain (store (store (store st.cell st.brk { value := s, next := none }) t
          { nt with next := some st.brk }) st.brk { value := s, next := none }) q.head
          (init ++ [t, st.brk]) := by
        refine chain_snoc { nt with next := some st.brk }
          { value := s, next := none } hch ?_ ?_ rfl (store_same _ _ _) rfl
        · intro a ha
          have hab : a ≠ st.brk := hne a (by simp [ha])
          have hat : a ≠ t := fun h => htni (h ▸ ha)
          rw [store_other _ _ _ _ hab, store_other _ _ _ _ hat, store_other _ _ _ _ hab]
        · rw [store_other _ _ _ _ htb]; exact store_same _ _ _
      simpa using hgoal
    · simp
    · simp [hsz]
    · unfold vals
      rw [List.map_append]
      congr 1
      · apply List.map_congr_left
        intro a ha
        rcases List.mem_append.1 ha with hin | hin
        · have hab : a ≠ st.brk := hne a (by simp [hin])
          have hat : a ≠ t := fun h => htni (h ▸ hin)
          simp [valueAt, store_other _ _ _ _ hab, store_other _ _ _ _ hat]
        · have hat : a = t := by simpa using hin
          subst hat
          simp [valueAt, store_other _ _ _ _ htb, hnt]
      · simp [valueAt]

theorem q_remove_head_spec (w : Nat) (st : State) (q : queue_t) (a : Nat) (ps : List Nat)
    (buf : List Nat) (bufsize : Nat)
    (hq : st.q = some q) (hch : Chain st.cell q.head (a :: ps))
    (hsz : q.size = (a :: ps).length)
    (hv : ∀ b ∈ valueAt st.cell a, b ≠ 0) (hpos : 0 < bufsize) (hw : bufsize < 2 ^ w)
    (hL : (valueAt st.cell a).length + 1 < 2 ^ w) (hbuf : bufsize ≤ buf.length) :
    ∃ st1 q1 buf1, q_remove_head w st (some buf) bufsize = Res.ok (true, st1, some buf1) ∧
      st1.q = some q1 ∧ Chain st1.cell q1.head ps ∧ q1.size = ps.length ∧ q1.tail = q.tail ∧
      st1.cell = release st.cell a ∧ st1.brk = st.brk ∧
      buf1.length = buf.length ∧ cstrOf buf1 = (valueAt st.cell a).take (bufsize - 1) := by
  obtain ⟨hh, n, hn, hrest⟩ := hch
  have hva : valueAt st.cell a = n.value := by simp [valueAt, hn]
  rw [hva] at hv hL
  obtain ⟨b1, b2, hw1, hw2, hl, hc⟩ := buffer_writes w n.value buf bufsize hv hpos hw hL hbuf
  have hnz : q.size ≠ 0 := by rw [hsz]; simp
  have hnd : (a :: ps).Nodup := chain_nodup (c := st.cell) (p := some a) ⟨rfl, n, hn, hrest⟩
  have hani : a ∉ ps := (List.nodup_cons.1 hnd).1
  refine ⟨State.mk (release st.cell a) st.brk (some (queue_t.mk n.next q.tail (q.size - 1))),
    queue_t.mk n.next q.tail (q.size - 1), b2,
    ?_, rfl, ?_, ?_, rfl, rfl, rfl, hl, by rw [hva]; exact hc⟩
  · simp only [q_remove_head, hq, hnz, if_false, hh, hn]
    rw [hw1]
    simp only []
    rw [hw2]
  · exact chain_congr (fun x hx => release_other _ _ _ (fun h => hani (h ▸ hx))) hrest
  · simp [hsz]

theorem wf_q_new (c : Heap) (brk : Nat) : WF (q_new c brk true) [] :=
  ⟨_, rfl, rfl, rfl, rfl⟩

theorem insertTails_spec (w : Nat) : ∀ (xs : List CStr) (st : State) (ps : List Nat),
    WF st ps → (∀ a ∈ ps, a < st.brk) →
    (∀ x ∈ xs, (∀ b ∈ x, b ≠ 0) ∧ x.length + 1 < 2 ^ w) →
    ∃ st1 ps1, insertTails w st xs = Res.ok (List.replicate xs.length true, st1) ∧
      WF st1 ps1 ∧ (∀ a ∈ ps1, a < st1.brk) ∧ vals st1.cell ps1 = vals st.cell ps ++ xs
  | [], st, ps, hwf, hfr, _ => ⟨st, ps, rfl, hwf, hfr, by simp⟩
  | x :: xs, st, ps, hwf, hfr, hx => by
    obtain ⟨q, hq, hch, htl, hsz⟩ := hwf
    obtain ⟨hx1, hx2⟩ := hx x (List.mem_cons_self _ _)
    obtain ⟨st1, hrun, hwf1, hv1, hb1⟩ :=
      q_insert_tail_spec w st q ps x hq hch htl hsz hfr hx1 hx2
    have hfr1 : ∀ a ∈ ps ++ [st.brk], a < st1.brk := by
      intro a ha
      rw [hb1]
      rcases List.mem_append.1 ha with h | h
      · exact Nat.lt_succ_of_lt (hfr a h)
      · have : a = st.brk := by simpa using h
        omega
    obtain ⟨st2, ps2, hrun2, hwf2, hfr2, hv2⟩ :=
      insertTails_spec w xs st1 (ps ++ [st.brk]) hwf1 hfr1
        (fun y hy => hx y (List.mem_cons_of_mem _ hy))
    refine ⟨st2, ps2, ?_, hwf2, hfr2, ?_⟩
    · simp only [insertTails, hrun, hrun2, List.length_cons, List.replicate_succ]
    · rw [hv2, hv1]; simp

theorem insertHeads_spec (w : Nat) : ∀ (xs : List CStr) (st : State) (ps : List Nat),
    WF st ps → (∀ a ∈ ps, a < st.brk) →
    (∀ x ∈ xs, (∀ b ∈ x, b ≠ 0) ∧ x.length + 1 < 2 ^ w) →
    ∃ st1 ps1, insertHeads w st xs = Res.ok (List.replicate xs.length true, st1) ∧
      WF st1 ps1 ∧ (∀ a ∈ ps1, a < st1.brk) ∧ vals st1.cell ps1 = xs.reverse ++ vals st.cell ps
  | [], st, ps, hwf, hfr, _ => ⟨st, ps, rfl, hwf, hfr, by simp⟩
  | x :: xs, st, ps, hwf, hfr, hx => by
    obtain ⟨q, hq, hch, htl, hsz⟩ := hwf
    obtain ⟨hx1, hx2⟩ := hx x (List.mem_cons_self _ _)
    obtain ⟨st1, hrun, hwf1, hv1, hb1⟩ :=
      q_insert_head_spec w st q ps x hq hch htl hsz hfr hx1 hx2
    have hfr1 : ∀ a ∈ st.brk :: ps, a < st1.brk := by
      intro a ha
      rw [hb1]
      rcases List.mem_cons.1 ha with h | h
      · omega
      · exact Nat.lt_succ_of_lt (hfr a h)
    obtain ⟨st2, ps2, hrun2, hwf2, hfr2, hv2⟩ :=
      insertHeads_spec w xs st1 (st.brk :: ps) hwf1 hfr1
        (fun y hy => hx y (List.mem_cons_of_mem _ hy))
    refine ⟨st2, ps2, ?_, hwf2, hfr2, ?_⟩
    · simp only [insertHeads, hrun, hrun2, List.length_cons, List.replicate_succ]
    · rw [hv2, hv1]; simp

theorem removeHeads_spec (w : Nat) (bufsize : Nat) (hw : bufsize < 2 ^ w) :
    ∀ (ps : List Nat) (st : State) (q : queue_t) (buf : List Nat),
    st.q = some q → Chain st.cell q.head ps → q.size = ps.length →
    (∀ a ∈ ps, (∀ b ∈ valueAt st.cell a, b ≠ 0) ∧ (valueAt st.cell a).length < bufsize) →
    bufsize ≤ buf.length →
    ∃ st1, removeHeads w ps.length st buf bufsize =
        Res.ok ((vals st.cell ps).map (fun v => (true, v)), st1) ∧ q_size st1 = 0
  | [], st, q, _, hq, _, hsz, _, _ => ⟨st, rfl, by simp [q_size, hq, hsz]⟩
  | a :: ps, st, q, buf, hq, hch, hsz, hv, hbuf => by
    obtain ⟨hva, hcap⟩ := hv a (List.mem_cons_self _ _)
    obtain ⟨st1, q1, buf1, hrun, hq1, hch1, hsz1, _, hcell, _, hlen1, hout⟩ :=
      q_remove_head_spec w st q a ps buf bufsize hq hch hsz hva (by omega) hw (by omega) hbuf
    rw [List.take_of_length_le (by omega)] at hout
    have hani : a ∉ ps := (List.nodup_cons.1 (chain_nodup hch)).1
    have hsame : ∀ x ∈ ps, st1.cell x = st.cell x := by
      intro x hx
      rw [hcell]
      exact release_other _ _ _ (fun h => hani (h ▸ hx))
    have hv1 : ∀ x ∈ ps, (∀ b ∈ valueAt st1.cell x, b ≠ 0) ∧
        (valueAt st1.cell x).length < bufsize := by
      intro x hx
      have : valueAt st1.cell x = valueAt st.cell x := by simp [valueAt, hsame x hx]
      rw [this]
      exact hv x (List.mem_cons_of_mem _ hx)
    obtain ⟨st2, hrun2, hsz2⟩ :=
      removeHeads_spec w bufsize hw ps st1 q1 buf1 hq1 hch1 hsz1 hv1 (by omega)
    refine ⟨st2, ?_, hsz2⟩
    simp only [removeHeads, List.length_cons, hrun, Option.getD_some, hrun2, hout, vals,
      List.map_cons]
    have := vals_congr hsame
    unfold vals at this
    rw [this]

/-! ## Round trips through the queue -/

/-- Claim C1: on a freshly created empty queue, inserting the strings `xs` at
the tail in order (every allocation succeeding) and then removing the head
`xs.length` times with a buffer whose capacity exceeds the length of every
string succeeds each time, yields the strings of `xs` in their original order and leaves size 0. -/
theorem fifo_round_trip (w : Nat) (c : Heap) (brk : Nat) (xs : List CStr)
    (buf : List Nat) (bufsize : Nat)
    (hnul : ∀ x ∈ xs, ∀ b ∈ x, b ≠ 0)
    (hcap : ∀ x ∈ xs, x.length < bufsize)
    (hw : bufsize < 2 ^ w) (hbuf : bufsize ≤ buf.length) :
    ∃ st1 st2,
      insertTails w (q_new c brk true) xs = Res.ok (List.replicate xs.length true, st1) ∧
      removeHeads w xs.length st1 buf bufsize = Res.ok (xs.map (fun x => (true, x)), st2) ∧
      q_size st2 = 0 := by
  obtain ⟨st1, ps1, hrun1, hwf1, _, hv1⟩ :=
    insertTails_spec w xs (q_new c brk true) [] (wf_q_new c brk) (by simp)
      (fun x hx => ⟨hnul x hx, by have := hcap x hx; omega⟩)
  obtain ⟨q1, hq1, hch1, _, hsz1⟩ := hwf1
  have hv1' : vals st1.cell ps1 = xs := by simpa [vals] using hv1
  have hlen : ps1.length = xs.length := by
    rw [← hv1']; simp [vals]
  have hvals : ∀ a ∈ ps1, (∀ b ∈ valueAt st1.cell a, b ≠ 0) ∧
      (valueAt st1.cell a).length < bufsize := by
    intro a ha
    have hmem : valueAt st1.cell a ∈ xs := by
      rw [← hv1']; exact List.mem_map_of_mem _ ha
    exact ⟨hnul _ hmem, hcap _ hmem⟩
  obtain ⟨st2, hrun2, hsz2⟩ :=
    removeHeads_spec w bufsize hw ps1 st1 q1 buf hq1 hch1 hsz1 hvals hbuf
  rw [hlen, hv1'] at hrun2
  exact ⟨st1, st2, hrun1, hrun2, hsz2⟩

/-- Witness of `fifo_round_trip` on two strings with an eight-byte buffer. -/
theorem fifo_round_trip_witness :
    ∃ st1 st2,
      insertTails 8 (q_new (fun _ => none) 0 true) [[97], [98, 99]] =
        Res.ok (List.replicate 2 true, st1) ∧
      removeHeads 8 2 st1 (List.replicate 8 7) 8 =
        Res.ok ([(true, [97]), (true, [98, 99])], st2) ∧
      q_size st2 = 0 :=
  fifo_round_trip 8 (fun _ => none) 0 [[97], [98, 99]] (List.replicate 8 7) 8
    (by decide) (by decide) (by decide) (by decide)

/-- Claim C2: on a freshly created empty queue, inserting the strings `xs` at
the head in order (every allocation succeeding) and then removing the head
`xs.length` times with a buffer whose capacity exceeds the length of every
string succeeds each time and yields the strings of `xs` in reversed order. -/
theorem lifo_through_head (w : Nat) (c : Heap) (brk : Nat) (xs : List CStr)
    (buf : List Nat) (bufsize : Nat)
    (hnul : ∀ x ∈ xs, ∀ b ∈ x, b ≠ 0)
    (hcap : ∀ x ∈ xs, x.length < bufsize)
    (hw : bufsize < 2 ^ w) (hbuf : bufsize ≤ buf.length) :
    ∃ st1 st2,
      insertHeads w (q_new c brk true) xs = Res.ok (List.replicate xs.length true, st1) ∧
      removeHeads w xs.length st1 buf bufsize =
        Res.ok (xs.reverse.map (fun x => (true, x)), st2) := by
  obtain ⟨st1, ps1, hrun1, hwf1, _, hv1⟩ :=
    insertHeads_spec w xs (q_new c brk true) [] (wf_q_new c brk) (by simp)
      (fun x hx => ⟨hnul x hx, by have := hcap x hx; omega⟩)
  obtain ⟨q1, hq1, hch1, _, hsz1⟩ := hwf1
  have hv1' : vals st1.cell ps1 = xs.reverse := by simpa [vals] using hv1
  have hlen : ps1.length = xs.length := by
    have := congrArg List.length hv1'
    simpa [vals] using this
  have hvals : ∀ a ∈ ps1, (∀ b ∈ valueAt st1.cell a, b ≠ 0) ∧
      (valueAt st1.cell a).length < bufsize := by
    intro a ha
    have hmem : valueAt st1.cell a ∈ xs := by
      have : valueAt st1.cell a ∈ xs.reverse := by
        rw [← hv1']; exact List.mem_map_of_mem _ ha
      exact List.mem_reverse.1 this
    exact ⟨hnul _ hmem, hcap _ hmem⟩
  obtain ⟨st2, hrun2, _⟩ :=
    removeHeads_spec w bufsize hw ps1 st1 q1 buf hq1 hch1 hsz1 hvals hbuf
  rw [hlen, hv1'] at hrun2
  exact ⟨st1, st2, hrun1, hrun2⟩

/-- Witness of `lifo_through_head` on two strings with an eight-byte buffer. -/
theorem lifo_through_head_witness :
    ∃ st1 st2,
      insertHeads 8 (q_new (fun _ => none) 0 true) [[97], [98, 99]] =
        Res.ok (List.replicate 2 true, st1) ∧
      removeHeads 8 2 st1 (List.replicate 8 7) 8 =
        Res.ok ([(true, [98, 99]), (true, [97])], st2) :=
  lifo_through_head 8 (fun _ => none) 0 [[97], [98, 99]] (List.replicate 8 7) 8
    (by decide) (by decide) (by decide) (by decide)

/-! ## The order of strings -/

theorem strcmp_swap : ∀ (x y : CStr), strcmp y x = - strcmp x y
  | [], [] => by simp [strcmp]
  | [], _ :: _ => by simp [strcmp]
  | _ :: _, [] => by simp [strcmp]
  | a :: as, b :: bs => by
    simp only [strcmp]
    by_cases hab : a = b
    · subst hab
      simp only [if_true]
      exact strcmp_swap as bs
    · have hba : ¬ b = a := fun h => hab h.symm
      simp only [hab, hba, if_false]
      by_cases hlt : a < b
      · have : ¬ b < a := by omega
        simp [hlt, this]
      · have : b < a := by omega
        simp [hlt, this]

theorem strcmp_eq_zero : ∀ (x y : CStr), strcmp x y = 0 → x = y
  | [], [], _ => rfl
  | [], _ :: _, h => by simp [strcmp] at h
  | _ :: _, [], h => by simp [strcmp] at h
  | a :: as, b :: bs, h => by
    simp only [strcmp] at h
    by_cases hab : a = b
    · subst hab
      simp only [if_true] at h
      rw [strcmp_eq_zero as bs h]
    · simp only [hab, if_false] at h
      split at h <;> simp at h

theorem strcmp_self : ∀ (x : CStr), strcmp x x = 0
  | [] => rfl
  | a :: as => by simp [strcmp, strcmp_self as]

theorem strLe_refl (x : CStr) : strLe x x := by
  unfold strLe; rw [strcmp_self]

theorem strLe_of_gt {x y : CStr} (h : strcmp y x > 0) : strLe x y := by
  unfold strLe
  have := strcmp_swap x y
  omega

theorem strLe_of_not_gt {x y : CStr} (h : ¬ strcmp y x > 0) : strLe y x := by
  unfold strLe; omega

theorem strLe_total (x y : CStr) : strLe x y ∨ strLe y x := by
  by_cases h : strcmp y x > 0
  · exact Or.inl (strLe_of_gt h)
  · exact Or.inr (strLe_of_not_gt h)

theorem strLe_antisymm {x y : CStr} (h1 : strLe x y) (h2 : strLe y x) : x = y := by
  unfold strLe at h1 h2
  have := strcmp_swap x y
  exact strcmp_eq_zero x y (by omega)

theorem strLe_trans : ∀ {x y z : CStr}, strLe x y → strLe y z → strLe x z
  | [], _, [], _, _ => by simp [strLe, strcmp]
  | [], _, _ :: _, _, _ => by simp [strLe, strcmp]
  | _ :: _, [], _, h1, _ => by simp [strLe, strcmp] at h1
  | _ :: _, _ :: _, [], _, h2 => by simp [strLe, strcmp] at h2
  | a :: as, b :: bs, c :: cs, h1, h2 => by
    unfold strLe at h1 h2 ⊢
    simp only [strcmp] at h1 h2 ⊢
    by_cases hab : a = b
    · subst hab
      simp only [if_true] at h1
      by_cases hac : a = c
      · subst hac
        simp only [if_true] at h2 ⊢
        exact strLe_trans (x := as) (y := bs) (z := cs) h1 h2
      · simp only [hac, if_false] at h2 ⊢
        exact h2
    · simp only [hab, if_false] at h1
      have hlt : a < b := by
        by_contra hn
        simp [hn] at h1
      by_cases hbc : b = c
      · subst hbc
        simp [hab, hlt]
      · simp only [hbc, if_false] at h2
        have hlt2 : b < c := by
          by_contra hn
          simp [hn] at h2
        have hac : a ≠ c := by omega
        have hlt3 : a < c := by omega
        simp [hac, hlt3]

theorem strcmp_neg_iff_lex : ∀ (x y : CStr),
    strcmp x y < 0 ↔ List.Lex (fun a b : Nat => a < b) x y
  | [], [] => by
    simp only [strcmp, lt_self_iff_false, false_iff]
    intro h; cases h
  | [], b :: bs => by
    simp only [strcmp]
    exact ⟨fun _ => List.Lex.nil, fun _ => by decide⟩
  | a :: as, [] => by
    simp only [strcmp]
    constructor
    · intro h; exact absurd h (by decide)
    · intro h; cases h
  | a :: as, b :: bs => by
    simp only [strcmp]
    by_cases hab : a = b
    · subst hab
      simp only [if_true]
      rw [strcmp_neg_iff_lex as bs]
      constructor
      · exact fun h => List.Lex.cons h
      · intro h
        cases h with
        | cons h => exact h
        | rel h => exact absurd h (Nat.lt_irrefl _)
    · simp only [hab, if_false]
      by_cases hlt : a < b
      · simp only [hlt, if_true]
        exact ⟨fun _ => List.Lex.rel hlt, fun _ => by decide⟩
      · simp only [hlt, if_false]
        constructor
        · intro h; exact absurd h (by decide)
        · intro h
          cases h with
          | cons h => exact absurd rfl hab
          | rel h => exact absurd h hlt

/-- `strLe` is the lexicographic order of byte lists. -/
theorem strLe_iff_le (x y : CStr) : strLe x y ↔ x ≤ y := by
  rw [← not_lt]
  show strcmp x y ≤ 0 ↔ ¬ List.Lex (fun a b : Nat => a < b) y x
  rw [← strcmp_neg_iff_lex, strcmp_swap x y]
  omega

/-! ## Relinking -/

theorem relink_refl (c : Heap) (S : List Nat) : Relink c c S :=
  fun _ => ⟨rfl, fun _ => rfl⟩

theorem relink_trans {c c1 c2 : Heap} {S1 S2 S : List Nat}
    (h1 : Relink c c1 S1) (h2 : Relink c1 c2 S2)
    (hs1 : ∀ a ∈ S1, a ∈ S) (hs2 : ∀ a ∈ S2, a ∈ S) : Relink c c2 S := by
  intro a
  refine ⟨(h2 a).1.trans (h1 a).1, fun ha => ?_⟩
  rw [(h2 a).2 (fun h => ha (hs2 a h)), (h1 a).2 (fun h => ha (hs1 a h))]

theorem relink_store {c : Heap} {a : Nat} {n : list_ele_t} (h : c a = some n) (x : Ptr) :
    Relink c (store c a { n with next := x }) [a] := by
  intro b
  by_cases hb : b = a
  · subst hb
    simp [h]
  · exact ⟨by rw [store_other _ _ _ _ hb], fun _ => store_other _ _ _ _ hb⟩

theorem relink_valueAt {c c1 : Heap} {S : List Nat} (h : Relink c c1 S) :
    valueAt c1 = valueAt c := by
  funext a
  have := (h a).1
  unfold valueAt
  cases h1 : c1 a <;> cases h0 : c a <;> simp [h1, h0] at this ⊢
  exact this

theorem relink_seg {c c1 : Heap} {S : List Nat} (h : Relink c c1 S) {ps : List Nat} {p r : Ptr}
    (hd : ∀ a ∈ ps, a ∉ S) (hch : Seg c p ps r) : Seg c1 p ps r :=
  seg_congr ps p r (fun a ha => (h a).2 (hd a ha)) hch

theorem relink_chain {c c1 : Heap} {S : List Nat} (h : Relink c c1 S) {ps : List Nat} {p : Ptr}
    (hd : ∀ a ∈ ps, a ∉ S) (hch : Chain c p ps) : Chain c1 p ps :=
  relink_seg h hd hch

/-! ## The merge step -/

theorem mergeList_nil_left (v : Nat → CStr) (bs : List Nat) : mergeList v [] bs = bs := rfl

theorem mergeList_nil_right (v : Nat → CStr) : ∀ (as : List Nat), mergeList v as [] = as
  | [] => rfl
  | _ :: _ => rfl

theorem mergeList_cons_cons (v : Nat → CStr) (a : Nat) (as : List Nat) (b : Nat) (bs : List Nat) :
    mergeList v (a :: as) (b :: bs) =
      if strcmp (v b) (v a) > 0 then a :: mergeList v as (b :: bs)
      else b :: mergeList v (a :: as) bs := rfl

theorem mergeList_perm (v : Nat → CStr) : ∀ (as bs : List Nat),
    (mergeList v as bs).Perm (as ++ bs)
  | [], bs => by simp [mergeList_nil_left]
  | a :: as, [] => by simp [mergeList_nil_right]
  | a :: as, b :: bs => by
    rw [mergeList_cons_cons]
    split
    · exact List.Perm.cons a (mergeList_perm v as (b :: bs))
    · have h := mergeList_perm v (a :: as) bs
      exact (List.Perm.cons b h).trans (List.perm_middle.symm)
termination_by as bs => as.length + bs.length

theorem mergeList_sorted (v : Nat → CStr) : ∀ (as bs : List Nat),
    as.Pairwise (fun x y => strLe (v x) (v y)) → bs.Pairwise (fun x y => strLe (v x) (v y)) →
    (mergeList v as bs).Pairwise (fun x y => strLe (v x) (v y))
  | [], bs, _, hb => by simpa [mergeList_nil_left] using hb
  | a :: as, [], ha, _ => by simpa [mergeList_nil_right] using ha
  | a :: as, b :: bs, ha, hb => by
    rw [mergeList_cons_cons]
    have ha1 := List.pairwise_cons.1 ha
    have hb1 := List.pairwise_cons.1 hb
    split
    · rename_i hgt
      have hab : strLe (v a) (v b) := strLe_of_gt hgt
      refine List.pairwise_cons.2 ⟨?_, mergeList_sorted v as (b :: bs) ha1.2 hb⟩
      intro x hx
      have hx1 := (mergeList_perm v as (b :: bs)).subset hx
      rcases List.mem_append.1 hx1 with h | h
      · exact ha1.1 x h
      · rcases List.mem_cons.1 h with h | h
        · rw [h]; exact hab
        · exact strLe_trans hab (hb1.1 x h)
    · rename_i hgt
      have hba : strLe (v b) (v a) := strLe_of_not_gt hgt
      refine List.pairwise_cons.2 ⟨?_, mergeList_sorted v (a :: as) bs ha hb1.2⟩
      intro x hx
      have hx1 := (mergeList_perm v (a :: as) bs).subset hx
      rcases List.mem_append.1 hx1 with h | h
      · rcases List.mem_cons.1 h with h | h
        · rw [h]; exact hba
        · exact strLe_trans hba (ha1.1 x h)
      · exact hb1.1 x h
termination_by as bs => as.length + bs.length

theorem relink_mono {c c1 : Heap} {S1 S : List Nat} (h : Relink c c1 S1)
    (hs : ∀ a ∈ S1, a ∈ S) : Relink c c1 S :=
  fun a => ⟨(h a).1, fun ha => (h a).2 (fun hin => ha (hs a hin))⟩

theorem getLast?_cons_of_ne_nil {α : Type} (a : α) : ∀ {l : List α}, l ≠ [] →
    (a :: l).getLast? = l.getLast?
  | [], h => absurd rfl h
  | _ :: _, _ => List.getLast?_cons_cons

theorem mergeList_ne_nil (v : Nat → CStr) {as bs : List Nat} (h : as ≠ [] ∨ bs ≠ []) :
    mergeList v as bs ≠ [] := by
  intro hnil
  have hlen := (mergeList_perm v as bs).length_eq
  rw [hnil] at hlen
  simp only [List.length_nil, List.length_append] at hlen
  rcases h with h | h
  · exact h (List.length_eq_zero.1 (by omega))
  · exact h (List.length_eq_zero.1 (by omega))

theorem walkLast_spec : ∀ (fuel : Nat) (c : Heap) (a : Nat) (as : List Nat),
    Chain c (some a) (a :: as) → as.length < fuel →
    walkLast fuel c (some a) = Res.ok ((a :: as).getLast?)
  | 0, _, _, _, _, h => absurd h (Nat.not_lt_zero _)
  | fuel + 1, c, a, as, hch, hlen => by
    obtain ⟨_, n, hn, hrest⟩ := hch
    cases as with
    | nil =>
      have hnx : n.next = none := hrest
      simp [walkLast, load, hn, hnx]
    | cons b as =>
      have hnx : n.next = some b := hrest.1
      have hch1 : Chain c (some b) (b :: as) := by rw [← hnx]; exact hrest
      have ih := walkLast_spec fuel c b as hch1 (by simpa using hlen)
      simp only [walkLast, load, hn, hnx, ih]
      rw [List.getLast?_cons_cons]

theorem mergeLoop_spec : ∀ (fuel : Nat) (st : State) (q : queue_t) (t : Nat) (nt : list_ele_t)
    (A B : List Nat) (pa pb : Ptr),
    st.q = some q → st.cell t = some nt → Chain st.cell pa A → Chain st.cell pb B →
    t ∉ A → t ∉ B → (∀ x ∈ A, x ∉ B) → (A ≠ [] ∨ B ≠ []) → A.length + B.length < fuel →
    ∃ st1, mergeLoop fuel st (some t) pa pb = Res.ok st1 ∧
      Chain st1.cell (some t) (t :: mergeList (valueAt st.cell) A B) ∧
      Relink st.cell st1.cell (t :: (A ++ B)) ∧ st1.brk = st.brk ∧
      st1.q = some { q with tail := (mergeList (valueAt st.cell) A B).getLast? }
  | 0, _, _, _, _, _, _, _, _, _, _, _, _, _, _, _, _, h => absurd h (Nat.not_lt_zero _)
  | fuel + 1, st, q, t, nt, [], [], _, _, _, _, _, _, _, _, _, hne, _ => by
    rcases hne with h | h <;> exact absurd rfl h
  | fuel + 1, st, q, t, nt, a :: as, [], pa, pb, hq, ht, hA, hB, htA, _, _, _, hlen => by
    have hpa : pa = some a := hA.1
    have hpb : pb = none := hB
    subst hpa; subst hpb
    have hrl := relink_store ht (some a)
    have hA1 : Chain (store st.cell t { nt with next := some a }) (some a) (a :: as) :=
      relink_chain hrl (fun x hx => by
        intro hin
        have : x = t := by simpa using hin
        exact htA (this ▸ hx)) hA
    have hw := walkLast_spec fuel _ a as hA1 (by simpa using hlen)
    simp only [mergeLoop, setNext, ht, hw, setTail, hq]
    refine ⟨_, rfl, ?_, ?_, ?_, ?_⟩
    · rw [mergeList_nil_right]
      exact ⟨rfl, _, store_same _ _ _, hA1⟩
    · exact relink_mono hrl (by simp)
    · rfl
    · rw [mergeList_nil_right]
  | fuel + 1, st, q, t, nt, [], b :: bs, pa, pb, hq, ht, hA, hB, _, htB, _, _, hlen => by
    have hpa : pa = none := hA
    have hpb : pb = some b := hB.1
    subst hpa; subst hpb
    have hrl := relink_store ht (some b)
    have hB1 : Chain (store st.cell t { nt with next := some b }) (some b) (b :: bs) :=
      relink_chain hrl (fun x hx => by
        intro hin
        have : x = t := by simpa using hin
        exact htB (this ▸ hx)) hB
    have hw := walkLast_spec fuel _ b bs hB1 (by simpa using hlen)
    simp only [mergeLoop, setNext, ht, hw, setTail, hq]
    refine ⟨_, rfl, ?_, ?_, ?_, ?_⟩
    · rw [mergeList_nil_left]
      exact ⟨rfl, _, store_same _ _ _, hB1⟩
    · exact relink_mono hrl (by simp)
    · rfl
    · rw [mergeList_nil_left]
  | fuel + 1, st, q, t, nt, a :: as, b :: bs, pa, pb, hq, ht, hA, hB, htA, htB, hdis, _, hlen => by
    obtain ⟨hpa, na, hna, hAr⟩ := hA
    obtain ⟨hpb, nb, hnb, hBr⟩ := hB
    subst hpa; subst hpb
    have hat : a ≠ t := fun h => htA (by simp [h])
    have hbt : b ≠ t := fun h => htB (by simp [h])
    have hndA : (a :: as).Nodup := chain_nodup (c := st.cell) (p := some a) ⟨rfl, na, hna, hAr⟩
    have hndB : (b :: bs).Nodup := chain_nodup (c := st.cell) (p := some b) ⟨rfl, nb, hnb, hBr⟩
    have hva : valueAt st.cell a = na.value := by simp [valueAt, hna]
    have hvb : valueAt st.cell b = nb.value := by simp [valueAt, hnb]
    by_cases hgt : strcmp nb.value na.value > 0
    · have hrl := relink_store ht (some a)
      have hfr : ∀ x, x ≠ t → store st.cell t { nt with next := some a } x = st.cell x :=
        fun x hx => store_other _ _ _ _ hx
      have hAr1 : Chain (store st.cell t { nt with next := some a }) na.next as :=
        chain_congr (fun x hx => hfr x (fun h => htA (by simp [← h, hx]))) hAr
      have hB1 : Chain (store st.cell t { nt with next := some a }) (some b) (b :: bs) :=
        chain_congr (fun x hx => hfr x (fun h => htB (h ▸ hx))) ⟨rfl, nb, hnb, hBr⟩
      obtain ⟨st1, hrun, hch1, hrl1, hbrk1, hq1⟩ :=
        mergeLoop_spec fuel { st with cell := store st.cell t { nt with next := some a } } q a na
          as (b :: bs) na.next (some b) hq (by show store st.cell t _ a = _; rw [hfr a hat]; exact hna) hAr1 hB1
          (List.nodup_cons.1 hndA).1 (hdis a (List.mem_cons_self _ _))
          (fun x hx => hdis x (List.mem_cons_of_mem _ hx)) (Or.inr (by simp))
          (by simp only [List.length_cons] at hlen ⊢; omega)
      have hv1 : valueAt (store st.cell t { nt with next := some a }) = valueAt st.cell :=
        relink_valueAt hrl
      simp only [hv1] at hch1 hq1
      have hml : mergeList (valueAt st.cell) (a :: as) (b :: bs) =
          a :: mergeList (valueAt st.cell) as (b :: bs) := by
        rw [mergeList_cons_cons, hva, hvb, if_pos hgt]
      have htn : t ∉ a :: (as ++ b :: bs) := by
        intro hin
        rcases List.mem_cons.1 hin with h | h
        · exact hat h.symm
        · rcases List.mem_append.1 h with h | h
          · exact htA (List.mem_cons_of_mem _ h)
          · exact htB h
      refine ⟨st1, ?_, ?_, ?_, hbrk1, ?_⟩
      · simp only [mergeLoop, load, hnb, hna, hgt, if_true, setNext, ht, store_same,
          hfr a hat]
        exact hrun
      · rw [hml]
        refine ⟨rfl, { nt with next := some a }, ?_, hch1⟩
        rw [(hrl1 t).2 htn]
        exact store_same _ _ _
      · refine relink_trans hrl hrl1 (by simp) ?_
        intro x hx
        exact List.mem_cons_of_mem _ (by simpa using hx)
      · rw [hml, getLast?_cons_of_ne_nil a (mergeList_ne_nil _ (Or.inr (by simp)))]
        exact hq1
    · have hrl := relink_store ht (some b)
      have hfr : ∀ x, x ≠ t → store st.cell t { nt with next := some b } x = st.cell x :=
        fun x hx => store_other _ _ _ _ hx
      have hBr1 : Chain (store st.cell t { nt with next := some b }) nb.next bs :=
        chain_congr (fun x hx => hfr x (fun h => htB (by simp [← h, hx]))) hBr
      have hA1 : Chain (store st.cell t { nt with next := some b }) (some a) (a :: as) :=
        chain_congr (fun x hx => hfr x (fun h => htA (h ▸ hx))) ⟨rfl, na, hna, hAr⟩
      obtain ⟨st1, hrun, hch1, hrl1, hbrk1, hq1⟩ :=
        mergeLoop_spec fuel { st with cell := store st.cell t { nt with next := some b } } q b nb
          (a :: as) bs (some a) nb.next hq (by show store st.cell t _ b = _; rw [hfr b hbt]; exact hnb) hA1 hBr1
          (fun h => hdis b h (List.mem_cons_self _ _)) (List.nodup_cons.1 hndB).1
          (fun x hx hxb => hdis x hx (List.mem_cons_of_mem _ hxb)) (Or.inl (by simp))
          (by simp only [List.length_cons] at hlen ⊢; omega)
      have hv1 : valueAt (store st.cell t { nt with next := some b }) = valueAt st.cell :=
        relink_valueAt hrl
      simp only [hv1] at hch1 hq1
      have hml : mergeList (valueAt st.cell) (a :: as) (b :: bs) =
          b :: mergeList (valueAt st.cell) (a :: as) bs := by
        rw [mergeList_cons_cons, hva, hvb, if_neg hgt]
      have htn : t ∉ b :: (a :: as ++ bs) := by
        intro hin
        rcases List.mem_cons.1 hin with h | h
        · exact hbt h.symm
        · rcases List.mem_append.1 h with h | h
          · exact htA h
          · exact htB (List.mem_cons_of_mem _ h)
      refine ⟨st1, ?_, ?_, ?_, hbrk1, ?_⟩
      · simp only [mergeLoop, load, hnb, hna, hgt, if_false, setNext, ht, store_same,
          hfr b hbt]
        exact hrun
      · rw [hml]
        refine ⟨rfl, { nt with next := some b }, ?_, hch1⟩
        rw [(hrl1 t).2 htn]
        exact store_same _ _ _
      · refine relink_trans hrl hrl1 (by simp) ?_
        intro x hx
        refine List.mem_cons_of_mem _ ?_
        simp only [List.mem_cons, List.mem_append] at hx ⊢
        tauto
      · rw [hml, getLast?_cons_of_ne_nil b (mergeList_ne_nil _ (Or.inl (by simp)))]
        exact hq1

theorem merge_spec (fuel : Nat) (st : State) (q : queue_t) (a : Nat) (as : List Nat)
    (b : Nat) (bs : List Nat) (pa pb : Ptr)
    (hq : st.q = some q) (hA : Chain st.cell pa (a :: as)) (hB : Chain st.cell pb (b :: bs))
    (hdis : ∀ x ∈ a :: as, x ∉ b :: bs)
    (hlen : (a :: as).length + (b :: bs).length ≤ fuel) :
    ∃ st1 h, merge fuel st pa pb = Res.ok (st1, h) ∧
      Chain st1.cell h (mergeList (valueAt st.cell) (a :: as) (b :: bs)) ∧
      Relink st.cell st1.cell (a :: as ++ b :: bs) ∧ st1.brk = st.brk ∧
      st1.q = some { q with
        tail := (mergeList (valueAt st.cell) (a :: as) (b :: bs)).getLast? } := by
  have hndA : (a :: as).Nodup := chain_nodup hA
  have hndB : (b :: bs).Nodup := chain_nodup hB
  obtain ⟨hpa, na, hna, hAr⟩ := hA
  obtain ⟨hpb, nb, hnb, hBr⟩ := hB
  subst hpa; subst hpb
  have hva : valueAt st.cell a = na.value := by simp [valueAt, hna]
  have hvb : valueAt st.cell b = nb.value := by simp [valueAt, hnb]
  simp only [List.length_cons] at hlen
  by_cases hgt : strcmp nb.value na.value > 0
  · obtain ⟨st1, hrun, hch1, hrl1, hbrk1, hq1⟩ :=
      mergeLoop_spec fuel st q a na as (b :: bs) na.next (some b) hq hna hAr
        ⟨rfl, nb, hnb, hBr⟩ (List.nodup_cons.1 hndA).1 (hdis a (List.mem_cons_self _ _))
        (fun x hx => hdis x (List.mem_cons_of_mem _ hx)) (Or.inr (by simp))
        (by simp only [List.length_cons]; omega)
    have hml : mergeList (valueAt st.cell) (a :: as) (b :: bs) =
        a :: mergeList (valueAt st.cell) as (b :: bs) := by
      rw [mergeList_cons_cons, hva, hvb, if_pos hgt]
    refine ⟨st1, some a, ?_, ?_, hrl1, hbrk1, ?_⟩
    · simp only [merge, load, hnb, hna, hgt, if_true, hrun]
    · rw [hml]; exact hch1
    · rw [hml, getLast?_cons_of_ne_nil a (mergeList_ne_nil _ (Or.inr (by simp)))]
      exact hq1
  · obtain ⟨st1, hrun, hch1, hrl1, hbrk1, hq1⟩ :=
      mergeLoop_spec fuel st q b nb (a :: as) bs (some a) nb.next hq hnb
        ⟨rfl, na, hna, hAr⟩ hBr (fun h => hdis b h (List.mem_cons_self _ _))
        (List.nodup_cons.1 hndB).1
        (fun x hx hxb => hdis x hx (List.mem_cons_of_mem _ hxb)) (Or.inl (by simp))
        (by simp only [List.length_cons]; omega)
    have hml : mergeList (valueAt st.cell) (a :: as) (b :: bs) =
        b :: mergeList (valueAt st.cell) (a :: as) bs := by
      rw [mergeList_cons_cons, hva, hvb, if_neg hgt]
    refine ⟨st1, some b, ?_, ?_, ?_, hbrk1, ?_⟩
    · simp only [merge, load, hnb, hna, hgt, if_false, hrun]
    · rw [hml]; exact hch1
    · refine relink_mono hrl1 ?_
      intro x hx
      simp only [List.mem_cons, List.mem_append] at hx ⊢
      tauto
    · rw [hml, getLast?_cons_of_ne_nil b (mergeList_ne_nil _ (Or.inl (by simp)))]
      exact hq1

/-! ## The split step -/

theorem splitLoop_spec : ∀ (fuel : Nat) (c : Heap) (fast slow : Ptr) (F S : List Nat),
    Chain c fast F → Chain c slow S → F.length / 2 < S.length → F.length / 2 < fuel →
    ∃ r, splitLoop fuel c fast slow = Res.ok r ∧ Chain c r (S.drop (F.length / 2))
  | 0, _, _, _, _, _, _, _, _, h => absurd h (Nat.not_lt_zero _)
  | fuel + 1, c, fast, slow, [], S, hF, hS, _, _ => by
    have hf : fast = none := hF
    subst hf
    exact ⟨slow, by simp [splitLoop], by simpa using hS⟩
  | fuel + 1, c, fast, slow, [f], S, hF, hS, _, _ => by
    obtain ⟨hf, fn, hfn, hrest⟩ := hF
    have hnx : fn.next = none := hrest
    subst hf
    exact ⟨slow, by simp [splitLoop, load, hfn, hnx], by simpa using hS⟩
  | fuel + 1, c, fast, slow, f :: f1 :: F, S, hF, hS, hlt, hfuel => by
    obtain ⟨hf, fn, hfn, hrest⟩ := hF
    obtain ⟨hf1, fn1, hfn1, hrest1⟩ := hrest
    subst hf
    have hk : (f :: f1 :: F).length / 2 = F.length / 2 + 1 := by
      simp only [List.length_cons]; omega
    rw [hk] at hlt hfuel
    cases S with
    | nil => simp at hlt
    | cons s S =>
      obtain ⟨hs, sn, hsn, hSr⟩ := hS
      subst hs
      obtain ⟨r, hrun, hch⟩ := splitLoop_spec fuel c fn1.next sn.next F S hrest1 hSr
        (by simpa using hlt) (by omega)
      refine ⟨r, ?_, ?_⟩
      · simp only [splitLoop, load, hfn, hf1, hfn1, hsn, hrun]
      · rw [hk]; simpa using hch

theorem chain_split {c : Heap} {p : Ptr} {L1 L2 : List Nat} {s : Nat} {sn : list_ele_t}
    (h : Chain c p (L1 ++ s :: L2)) (hs : c s = some sn) :
    Chain (store c s { sn with next := none }) p (L1 ++ [s]) ∧
      Chain (store c s { sn with next := none }) sn.next L2 := by
  have hnd : (L1 ++ s :: L2).Nodup := chain_nodup h
  have hnd1 := List.nodup_append.1 hnd
  have hs1 : s ∉ L1 := fun hin => hnd1.2.2 hin (List.mem_cons_self _ _)
  have hs2 : s ∉ L2 := (List.nodup_cons.1 hnd1.2.1).1
  obtain ⟨m, hseg, hrest⟩ := (seg_append L1 (s :: L2) p none).1 h
  obtain ⟨hm, n, hn, hr2⟩ := hrest
  rw [hs] at hn
  have hnn : sn = n := Option.some.inj hn
  subst hnn
  constructor
  · refine (seg_append L1 [s] p none).2 ⟨m, ?_, hm, _, store_same _ _ _, rfl⟩
    exact seg_congr L1 p m (fun x hx => store_other _ _ _ _ (fun hxs => hs1 (hxs ▸ hx))) hseg
  · exact chain_congr (fun x hx => store_other _ _ _ _ (fun hxs => hs2 (hxs ▸ hx))) hr2

/-! ## `mergeSort` and `q_sort` -/

theorem mergeSort_spec : ∀ (fuel : Nat) (st : State) (q : queue_t) (p : Ptr) (ps : List Nat),
    st.q = some q → Chain st.cell p ps → ps.length < fuel →
    ∃ st1 p1 ps1, mergeSort fuel st p = Res.ok (st1, p1) ∧ Chain st1.cell p1 ps1 ∧
      ps1.Perm ps ∧
      ps1.Pairwise (fun x y => strLe (valueAt st.cell x) (valueAt st.cell y)) ∧
      Relink st.cell st1.cell ps ∧ st1.brk = st.brk ∧
      ∃ t, st1.q = some { q with tail := t } ∧ (2 ≤ ps.length → t = ps1.getLast?) ∧
        (ps.length ≤ 1 → t = q.tail)
  | 0, _, _, _, _, _, _, h => absurd h (Nat.not_lt_zero _)
  | fuel + 1, st, q, p, [], hq, hch, _ => by
    have hp : p = none := hch
    subst hp
    exact ⟨st, none, [], by simp [mergeSort], rfl, List.Perm.refl _, List.Pairwise.nil,
      relink_refl _ _, rfl, q.tail, hq, by simp, fun _ => rfl⟩
  | fuel + 1, st, q, p, [a], hq, hch, _ => by
    obtain ⟨hp, n, hn, hrest⟩ := hch
    have hnx : n.next = none := hrest
    subst hp
    exact ⟨st, some a, [a], by simp [mergeSort, load, hn, hnx], ⟨rfl, n, hn, hrest⟩,
      List.Perm.refl _, List.pairwise_singleton _ _, relink_refl _ _, rfl, q.tail, hq, by simp,
      fun _ => rfl⟩
  | fuel + 1, st, q, p, a :: b :: rest, hq, hch, hlen => by
    have hchS : Chain st.cell p (a :: b :: rest) := hch
    obtain ⟨hp, n, hn, hrest⟩ := hch
    subst hp
    have hnx : n.next = some b := hrest.1
    simp only [List.length_cons] at hlen
    -- the slow/fast walk
    obtain ⟨r, hsplit, hr⟩ := splitLoop_spec fuel st.cell n.next (some a) (b :: rest)
      (a :: b :: rest) hrest hchS (by simp only [List.length_cons]; omega)
      (by simp only [List.length_cons]; omega)
    have hklt : (b :: rest).length / 2 < (a :: b :: rest).length := by
      simp only [List.length_cons]; omega
    generalize hk : (b :: rest).length / 2 = k at hr hklt
    have hkval : k = (rest.length + 1) / 2 := by rw [← hk]; simp
    cases hdrop : (a :: b :: rest).drop k with
    | nil =>
      have := congrArg List.length hdrop
      simp only [List.length_drop, List.length_nil] at this
      omega
    | cons s L2 =>
      rw [hdrop] at hr
      obtain ⟨hrp, sn, hsn, hL2⟩ := hr
      subst hrp
      have hS : (a :: b :: rest) = (a :: b :: rest).take k ++ s :: L2 := by
        rw [← hdrop]; exact (List.take_append_drop k _).symm
      have hlenS : ((a :: b :: rest).take k).length = k := by
        rw [List.length_take]; exact Nat.min_eq_left (Nat.le_of_lt hklt)
      have hlenL2 : L2.length + k + 1 = rest.length + 2 := by
        have := congrArg List.length hS
        simp only [List.length_append, List.length_cons, hlenS] at this
        omega
      have hsplitCh : Chain st.cell (some a) ((a :: b :: rest).take k ++ s :: L2) := by
        rw [← hS]; exact hchS
      obtain ⟨hA, hB⟩ := chain_split hsplitCh hsn
      have hnd : ((a :: b :: rest).take k ++ s :: L2).Nodup := chain_nodup hsplitCh
      have hndA : ∀ x ∈ (a :: b :: rest).take k ++ [s], x ∉ L2 := by
        intro x hx hx2
        have hnd1 := List.nodup_append.1 hnd
        rcases List.mem_append.1 hx with h | h
        · exact hnd1.2.2 h (List.mem_cons_of_mem _ hx2)
        · have hxs : x = s := by simpa using h
          exact (List.nodup_cons.1 hnd1.2.1).1 (hxs ▸ hx2)
      have hrl0 := relink_store hsn none
      -- first half
      obtain ⟨st2, pA, A1, hrunA, hchA, hpermA, hsortA, hrlA, hbrkA, t2, hq2, _, _⟩ :=
        mergeSort_spec fuel { st with cell := store st.cell s { sn with next := none } } q
          (some a) ((a :: b :: rest).take k ++ [s]) hq hA
          (by simp only [List.length_append, hlenS, List.length_singleton]; omega)
      -- second half
      have hB2 : Chain st2.cell sn.next L2 :=
        relink_chain hrlA (fun x hx hxA => hndA x hxA hx) hB
      obtain ⟨st3, pB, B1, hrunB, hchB, hpermB, hsortB, hrlB, hbrkB, t3, hq3, _, _⟩ :=
        mergeSort_spec fuel st2 _ sn.next L2 hq2 hB2 (by omega)
      have hA3 : Chain st3.cell pA A1 :=
        relink_chain hrlB (fun x hx hxB => hndA x (hpermA.subset hx) hxB) hchA
      -- the two sorted halves are not empty
      have hlenA1 : A1.length = k + 1 := by
        rw [hpermA.length_eq]; simp [hlenS]
      have hlenB1 : B1.length = L2.length := hpermB.length_eq
      have hL2pos : 0 < L2.length := by omega
      cases A1 with
      | nil => simp at hlenA1
      | cons a1 as1 =>
        cases B1 with
        | nil => simp only [List.length_nil] at hlenB1; omega
        | cons b1 bs1 =>
          have hdis : ∀ x ∈ a1 :: as1, x ∉ b1 :: bs1 := fun x hx hxB =>
            hndA x (hpermA.subset hx) (hpermB.subset hxB)
          obtain ⟨st4, h4, hrunM, hchM, hrlM, hbrkM, hq4⟩ :=
            merge_spec fuel st3 _ a1 as1 b1 bs1 pA pB hq3 hA3 hchB hdis
              (by rw [hlenA1, hlenB1]; omega)
          have hv1 : valueAt (store st.cell s { sn with next := none }) = valueAt st.cell :=
            relink_valueAt hrl0
          have hv2 : valueAt st2.cell = valueAt st.cell := (relink_valueAt hrlA).trans hv1
          have hv3 : valueAt st3.cell = valueAt st.cell := (relink_valueAt hrlB).trans hv2
          rw [hv3] at hchM hq4
          rw [hv2] at hsortB
          simp only [hv1] at hsortA
          have hpermAll : (a1 :: as1 ++ b1 :: bs1).Perm (a :: b :: rest) := by
            have h1 := List.Perm.append hpermA hpermB
            have h2 : ((a :: b :: rest).take k ++ [s]) ++ L2 = a :: b :: rest := by
              rw [List.append_assoc, List.singleton_append]; exact hS.symm
            rw [h2] at h1
            exact h1
          have hsubA : ∀ x ∈ (a :: b :: rest).take k ++ [s], x ∈ a :: b :: rest := by
            intro x hx
            rw [hS]
            rcases List.mem_append.1 hx with h | h
            · exact List.mem_append_left _ h
            · exact List.mem_append_right _ (by
                have hxs : x = s := by simpa using h
                rw [hxs]; exact List.mem_cons_self _ _)
          have hsubB : ∀ x ∈ L2, x ∈ a :: b :: rest := by
            intro x hx
            rw [hS]
            exact List.mem_append_right _ (List.mem_cons_of_mem _ hx)
          have hsubS : ∀ x ∈ [s], x ∈ a :: b :: rest := fun x hx =>
            hsubA x (List.mem_append_right _ hx)
          rw [hnx] at hsplit
          refine ⟨st4, h4, _, ?_, hchM, ?_, ?_, ?_, ?_, _, hq4, fun _ => rfl, ?_⟩
          · simp only [mergeSort, load, hn, hnx, hsplit, hsn, setNext, reduceCtorEq, if_false,
              hrunA, hrunB, hrunM]
          · exact (mergeList_perm _ _ _).trans hpermAll
          · exact mergeList_sorted _ _ _ hsortA hsortB
          · have h01 := relink_trans hrl0 hrlA hsubS hsubA
            have h02 := relink_trans h01 hrlB (fun x hx => hx) hsubB
            exact relink_trans h02 hrlM (fun x hx => hx) (fun x hx => hpermAll.subset hx)
          · rw [hbrkM, hbrkB, hbrkA]
          · intro hle
            simp only [List.length_cons] at hle
            omega

theorem chain_follow {c : Heap} : ∀ {ps : List Nat} {p : Ptr}, Chain c p ps →
    ∀ k, follow c k p = ps[k]?
  | [], p, h, k => by
    have hp : p = none := h
    subst hp
    induction k with
    | zero => rfl
    | succ k ih => simpa [follow, nextOf] using ih
  | a :: ps, p, h, 0 => by
    have hp : p = some a := h.1
    simp [follow, hp]
  | a :: ps, p, h, k + 1 => by
    obtain ⟨hp, n, hn, hrest⟩ := h
    subst hp
    have := chain_follow hrest k
    simpa [follow, nextOf, nextAt, hn] using this

theorem chain_last_next {c : Heap} : ∀ {ps : List Nat} {p : Ptr} {t : Nat}, Chain c p ps →
    ps.getLast? = some t → ∃ n, c t = some n ∧ n.next = none
  | [], _, _, _, h => by simp at h
  | [a], p, t, hch, h => by
    obtain ⟨_, n, hn, hrest⟩ := hch
    have hat : a = t := by simpa using h
    subst hat
    exact ⟨n, hn, hrest⟩
  | a :: b :: ps, p, t, hch, h => by
    obtain ⟨_, n, hn, hrest⟩ := hch
    rw [List.getLast?_cons_cons] at h
    exact chain_last_next hrest h

theorem q_sort_spec (fuel : Nat) (st : State) (ps : List Nat) (hwf : WF st ps)
    (hfuel : ps.length < fuel) :
    ∃ st1 ps1, q_sort fuel st = Res.ok st1 ∧ WF st1 ps1 ∧ ps1.Perm ps ∧
      ps1.Pairwise (fun x y => strLe (valueAt st.cell x) (valueAt st.cell y)) ∧
      Relink st.cell st1.cell ps ∧ st1.brk = st.brk := by
  obtain ⟨q, hq, hch, htl, hsz⟩ := hwf
  by_cases hsmall : ps.length ≤ 1
  · refine ⟨st, ps, ?_, ⟨q, hq, hch, htl, hsz⟩, List.Perm.refl _, ?_, relink_refl _ _, rfl⟩
    · simp [q_sort, hq, hsz, hsmall]
    · match ps, hsmall with
      | [], _ => exact List.Pairwise.nil
      | [a], _ => exact List.pairwise_singleton _ _
      | _ :: _ :: _, h => simp at h
  · obtain ⟨st1, p1, ps1, hrun, hch1, hperm, hsort, hrl, hbrk, t, hq1, ht, _⟩ :=
      mergeSort_spec fuel st q q.head ps hq hch hfuel
    have hszn : ¬ q.size ≤ 1 := by rw [hsz]; exact hsmall
    refine ⟨{ st1 with q := some { head := p1, tail := t, size := q.size } }, ps1, ?_,
      ⟨_, rfl, hch1, ht (by omega), ?_⟩, hperm, hsort, hrl, hbrk⟩
    · simp only [q_sort, hq, hszn, if_false, hrun, hq1]
    · show q.size = ps1.length
      rw [hsz, hperm.length_eq]

theorem sorted_vals_iff (c : Heap) (ps : List Nat) :
    (vals c ps).Pairwise strLe ↔
      ps.Pairwise (fun x y => strLe (valueAt c x) (valueAt c y)) := by
  unfold vals
  exact List.pairwise_map

theorem pairwise_adjacent {α : Type} {r : α → α → Prop} : ∀ {l : List α}, l.Pairwise r →
    ∀ (i : Nat) (x y : α), l[i]? = some x → l[i + 1]? = some y → r x y
  | [], _, i, x, y, hx, _ => by simp at hx
  | a :: l, h, 0, x, y, hx, hy => by
    have h1 := List.pairwise_cons.1 h
    have hax : a = x := by simpa using hx
    have hy1 : l[0]? = some y := by simpa using hy
    rw [← hax]
    exact h1.1 y (List.getElem?_mem hy1)
  | a :: l, h, i + 1, x, y, hx, hy => by
    have h1 := List.pairwise_cons.1 h
    exact pairwise_adjacent h1.2 i x y (by simpa using hx) (by simpa using hy)

/-! ## Properties of `q_sort` -/

/-- Claim C3: on every well-formed queue `q_sort` returns (given fuel above the
length) and the values read from the new head along the next-links are
ascending: every adjacent pair `x`, `y` has `strcmp x y ≤ 0`, that is `x ≤ y`
in the lexicographic order of byte lists, and in fact every earlier value is
not after every later one. -/
theorem sort_ascending (fuel : Nat) (st : State) (ps : List Nat) (hwf : WF st ps)
    (hfuel : ps.length < fuel) :
    ∃ st1 ps1, q_sort fuel st = Res.ok st1 ∧ WF st1 ps1 ∧
      (vals st1.cell ps1).Pairwise strLe ∧
      (∀ (i : Nat) (x y : CStr), (vals st1.cell ps1)[i]? = some x →
        (vals st1.cell ps1)[i + 1]? = some y → strcmp x y ≤ 0 ∧ x ≤ y) := by
  obtain ⟨st1, ps1, hrun, hwf1, _, hsort, hrl, _⟩ := q_sort_spec fuel st ps hwf hfuel
  have hsorted : (vals st1.cell ps1).Pairwise strLe := by
    rw [sorted_vals_iff, relink_valueAt hrl]; exact hsort
  refine ⟨st1, ps1, hrun, hwf1, hsorted, fun i x y hx hy => ?_⟩
  have hxy : strLe x y := pairwise_adjacent hsorted i x y hx hy
  exact ⟨hxy, (strLe_iff_le x y).1 hxy⟩

/-- Witness of `sort_ascending` on the queue "b", "a", "b". -/
theorem sort_ascending_witness :
    ∃ st1 ps1, q_sort 4 threeQueue = Res.ok st1 ∧ WF st1 ps1 ∧
      (vals st1.cell ps1).Pairwise strLe ∧
      (∀ (i : Nat) (x y : CStr), (vals st1.cell ps1)[i]? = some x →
        (vals st1.cell ps1)[i + 1]? = some y → strcmp x y ≤ 0 ∧ x ≤ y) :=
  sort_ascending 4 threeQueue [0, 1, 2] ⟨_, rfl, by decide, rfl, rfl⟩ (by decide)

/-- Claim C4: `q_sort` only relinks existing nodes.  On every well-formed queue
with nodes `ps` the chain from the new head ends in `NULL`, visits no node
twice and consists of exactly the nodes `ps`; the stored values are a
permutation of the original ones; the count is unchanged; every node keeps its
value, nothing outside `ps` is touched and nothing is allocated. -/
theorem sort_relinks_same_nodes (fuel : Nat) (st : State) (ps : List Nat) (hwf : WF st ps)
    (hfuel : ps.length < fuel) :
    ∃ st1 q1 ps1, q_sort fuel st = Res.ok st1 ∧ st1.q = some q1 ∧
      Chain st1.cell q1.head ps1 ∧ ps1.Nodup ∧ ps1.Perm ps ∧
      (vals st1.cell ps1).Perm (vals st.cell ps) ∧ q_size st1 = q_size st ∧
      Relink st.cell st1.cell ps ∧ st1.brk = st.brk := by
  obtain ⟨st1, ps1, hrun, hwf1, hperm, _, hrl, hbrk⟩ := q_sort_spec fuel st ps hwf hfuel
  obtain ⟨q, hq, _, _, hsz⟩ := hwf
  obtain ⟨q1, hq1, hch1, _, hsz1⟩ := hwf1
  refine ⟨st1, q1, ps1, hrun, hq1, hch1, chain_nodup hch1, hperm, ?_, ?_, hrl, hbrk⟩
  · unfold vals
    rw [relink_valueAt hrl]
    exact hperm.map _
  · simp only [q_size, hq, hq1, hsz, hsz1, hperm.length_eq]

/-- Witness of `sort_relinks_same_nodes` on the queue "b", "a", "b". -/
theorem sort_relinks_same_nodes_witness :
    ∃ st1 q1 ps1, q_sort 4 threeQueue = Res.ok st1 ∧ st1.q = some q1 ∧
      Chain st1.cell q1.head ps1 ∧ ps1.Nodup ∧ ps1.Perm [0, 1, 2] ∧
      (vals st1.cell ps1).Perm (vals threeQueue.cell [0, 1, 2]) ∧
      q_size st1 = q_size threeQueue ∧
      Relink threeQueue.cell st1.cell [0, 1, 2] ∧ st1.brk = threeQueue.brk :=
  sort_relinks_same_nodes 4 threeQueue [0, 1, 2] ⟨_, rfl, by decide, rfl, rfl⟩ (by decide)

/-- Claim C5: on every well-formed queue with at least two elements, after
`q_sort` the tail pointer is the last node of the sorted chain: it is the node
reached from the new head by following `size - 1` next-links, and its `next` is
`NULL`.  Moreover every call of `merge` on two disjoint non-empty chains sets
the tail to the last node of the chain it returns. -/
theorem sort_tail_is_last (fuel : Nat) (st : State) (ps : List Nat) (hwf : WF st ps)
    (hlen : 2 ≤ ps.length) (hfuel : ps.length < fuel) :
    (∃ st1 q1 ps1 t n, q_sort fuel st = Res.ok st1 ∧ st1.q = some q1 ∧
      Chain st1.cell q1.head ps1 ∧ q1.size = ps1.length ∧
      q1.tail = some t ∧ ps1.getLast? = some t ∧
      follow st1.cell (q1.size - 1) q1.head = q1.tail ∧
      st1.cell t = some n ∧ n.next = none) ∧
    (∀ (k : Nat) (s0 : State) (q0 : queue_t) (a : Nat) (as : List Nat) (b : Nat) (bs : List Nat)
      (pa pb : Ptr), s0.q = some q0 → Chain s0.cell pa (a :: as) → Chain s0.cell pb (b :: bs) →
      (∀ x ∈ a :: as, x ∉ b :: bs) → (a :: as).length + (b :: bs).length ≤ k →
      ∃ s1 h q1 out, merge k s0 pa pb = Res.ok (s1, h) ∧ s1.q = some q1 ∧
        Chain s1.cell h out ∧ q1.tail = out.getLast?) := by
  constructor
  · obtain ⟨st1, ps1, hrun, hwf1, hperm, _, _, _⟩ := q_sort_spec fuel st ps hwf hfuel
    obtain ⟨q1, hq1, hch1, htl1, hsz1⟩ := hwf1
    have hlen1 : 2 ≤ ps1.length := by rw [hperm.length_eq]; exact hlen
    have hne : ps1 ≠ [] := by
      intro h; rw [h] at hlen1; simp at hlen1
    obtain ⟨t, ht⟩ : ∃ t, ps1.getLast? = some t :=
      ⟨ps1.getLast hne, List.getLast?_eq_getLast _ hne⟩
    obtain ⟨n, hn, hnx⟩ := chain_last_next hch1 ht
    refine ⟨st1, q1, ps1, t, n, hrun, hq1, hch1, hsz1, by rw [htl1, ht], ht, ?_, hn, hnx⟩
    rw [chain_follow hch1, htl1, hsz1, List.getLast?_eq_getElem?]
  · intro k s0 q0 a as b bs pa pb hq0 hA hB hdis hk
    obtain ⟨s1, h, hrun, hch, _, _, hq1⟩ := merge_spec k s0 q0 a as b bs pa pb hq0 hA hB hdis hk
    exact ⟨s1, h, _, _, hrun, hq1, hch, rfl⟩

/-- Witness of `sort_tail_is_last` on the queue "b", "a", "b". -/
theorem sort_tail_is_last_witness :
    (∃ st1 q1 ps1 t n, q_sort 4 threeQueue = Res.ok st1 ∧ st1.q = some q1 ∧
      Chain st1.cell q1.head ps1 ∧ q1.size = ps1.length ∧
      q1.tail = some t ∧ ps1.getLast? = some t ∧
      follow st1.cell (q1.size - 1) q1.head = q1.tail ∧
      st1.cell t = some n ∧ n.next = none) ∧
    (∀ (k : Nat) (s0 : State) (q0 : queue_t) (a : Nat) (as : List Nat) (b : Nat) (bs : List Nat)
      (pa pb : Ptr), s0.q = some q0 → Chain s0.cell pa (a :: as) → Chain s0.cell pb (b :: bs) →
      (∀ x ∈ a :: as, x ∉ b :: bs) → (a :: as).length + (b :: bs).length ≤ k →
      ∃ s1 h q1 out, merge k s0 pa pb = Res.ok (s1, h) ∧ s1.q = some q1 ∧
        Chain s1.cell h out ∧ q1.tail = out.getLast?) :=
  sort_tail_is_last 4 threeQueue [0, 1, 2] ⟨_, rfl, by decide, rfl, rfl⟩ (by decide) (by decide)

/-- Claim C8: `q_sort` is idempotent on values.  On a well-formed queue whose
values are already ascending, the values read from head to tail after
`q_sort` are the same sequence as before; hence on any well-formed queue a
second `q_sort` leaves the value sequence produced by the first unchanged. -/
theorem sort_idempotent_on_values (fuel : Nat) (st : State) (ps : List Nat)
    (hwf : WF st ps) (hsorted : (vals st.cell ps).Pairwise strLe) (hfuel : ps.length < fuel) :
    (∃ st1 ps1, q_sort fuel st = Res.ok st1 ∧ WF st1 ps1 ∧
      vals st1.cell ps1 = vals st.cell ps) ∧
    (∀ (f1 f2 : Nat) (s : State) (l : List Nat), WF s l → l.length < f1 → l.length < f2 →
      ∃ s1 l1 s2 l2, q_sort f1 s = Res.ok s1 ∧ WF s1 l1 ∧
        q_sort f2 s1 = Res.ok s2 ∧ WF s2 l2 ∧ vals s2.cell l2 = vals s1.cell l1) := by
  haveI : IsAntisymm CStr strLe := ⟨fun _ _ h1 h2 => strLe_antisymm h1 h2⟩
  have key : ∀ (f : Nat) (s : State) (l : List Nat), WF s l → l.length < f →
      (vals s.cell l).Pairwise strLe →
      ∃ s1 l1, q_sort f s = Res.ok s1 ∧ WF s1 l1 ∧ vals s1.cell l1 = vals s.cell l := by
    intro f s l hw hf hsrt
    obtain ⟨s1, l1, hrun, hwf1, hperm, hsort, hrl, _⟩ := q_sort_spec f s l hw hf
    refine ⟨s1, l1, hrun, hwf1, ?_⟩
    have hs1 : (vals s1.cell l1).Pairwise strLe := by
      rw [sorted_vals_iff, relink_valueAt hrl]; exact hsort
    have hp : (vals s1.cell l1).Perm (vals s.cell l) := by
      unfold vals
      rw [relink_valueAt hrl]
      exact hperm.map _
    exact List.eq_of_perm_of_sorted hp hs1 hsrt
  refine ⟨key fuel st ps hwf hfuel hsorted, ?_⟩
  intro f1 f2 s l hw hf1 hf2
  obtain ⟨s1, l1, hrun, hwf1, hperm, hsort, hrl, _⟩ := q_sort_spec f1 s l hw hf1
  have hs1 : (vals s1.cell l1).Pairwise strLe := by
    rw [sorted_vals_iff, relink_valueAt hrl]; exact hsort
  obtain ⟨s2, l2, hrun2, hwf2, hv⟩ :=
    key f2 s1 l1 hwf1 (by rw [hperm.length_eq]; exact hf2) hs1
  exact ⟨s1, l1, s2, l2, hrun, hwf1, hrun2, hwf2, hv⟩

/-- Witness of `sort_idempotent_on_values` on the ascending queue "a", "b". -/
theorem sort_idempotent_on_values_witness :
    (∃ st1 ps1, q_sort 3 sortedQueue = Res.ok st1 ∧ WF st1 ps1 ∧
      vals st1.cell ps1 = vals sortedQueue.cell [0, 1]) ∧
    (∀ (f1 f2 : Nat) (s : State) (l : List Nat), WF s l → l.length < f1 → l.length < f2 →
      ∃ s1 l1 s2 l2, q_sort f1 s = Res.ok s1 ∧ WF s1 l1 ∧
        q_sort f2 s1 = Res.ok s2 ∧ WF s2 l2 ∧ vals s2.cell l2 = vals s1.cell l1) :=
  sort_idempotent_on_values 3 sortedQueue [0, 1] ⟨_, rfl, by decide, rfl, rfl⟩
    (by decide) (by decide)

/-! ## `q_reverse` -/

theorem reverseLoop_spec : ∀ (fuel : Nat) (c : Heap) (n1 : Nat) (A : List Nat) (b : Nat)
    (B : List Nat) (prev : Ptr) (nb : list_ele_t),
    Seg c prev A (some n1) → c b = some nb → Chain c nb.next B →
    (∀ x ∈ b :: B, x ∉ A) → n1 ∉ b :: B → B.length < fuel →
    ∃ c1, reverseLoop fuel c prev (some b) nb.next = Res.ok c1 ∧
      Seg c1 ((b :: B).getLast?) ((b :: B).reverse ++ A) (some n1) ∧
      Relink c c1 (b :: B)
  | 0, _, _, _, _, _, _, _, _, _, _, _, _, h => absurd h (Nat.not_lt_zero _)
  | fuel + 1, c, n1, A, b, [], prev, nb, hA, hb, hB, hdis, _, _ => by
    have hnx : nb.next = none := hB
    have hrl := relink_store hb prev
    refine ⟨store c b { nb with next := prev }, ?_, ?_, hrl⟩
    · simp [reverseLoop, setNext, hb, hnx]
    · refine ⟨rfl, _, store_same _ _ _, ?_⟩
      exact relink_seg hrl (fun x hx hxb => hdis b (List.mem_cons_self _ _)
        (by have : x = b := by simpa using hxb
            exact this ▸ hx)) hA
  | fuel + 1, c, n1, A, b, b1 :: B, prev, nb, hA, hb, hB, hdis, hn1, hlen => by
    have hndB : (b :: b1 :: B).Nodup := chain_nodup (c := c) (p := some b) ⟨rfl, nb, hb, hB⟩
    obtain ⟨hnx, nb1, hb1, hBr⟩ := hB
    have hbb1 : b1 ≠ b := by
      intro h
      exact (List.nodup_cons.1 hndB).1 (by simp [h])
    have hrl := relink_store hb prev
    have hfr : ∀ x, x ≠ b → store c b { nb with next := prev } x = c x :=
      fun x hx => store_other _ _ _ _ hx
    have hbA : b ∉ A := hdis b (List.mem_cons_self _ _)
    have hA1 : Seg (store c b { nb with next := prev }) (some b) (b :: A) (some n1) :=
      ⟨rfl, _, store_same _ _ _, seg_congr A prev (some n1)
        (fun x hx => hfr x (fun h => hbA (h ▸ hx))) hA⟩
    have hb1' : store c b { nb with next := prev } b1 = some nb1 := by
      rw [hfr b1 hbb1]; exact hb1
    have hBr1 : Chain (store c b { nb with next := prev }) nb1.next B :=
      chain_congr (fun x hx => hfr x (fun h => (List.nodup_cons.1 hndB).1
        (by rw [← h]; exact List.mem_cons_of_mem _ hx))) hBr
    have hdis1 : ∀ x ∈ b1 :: B, x ∉ b :: A := by
      intro x hx hxin
      rcases List.mem_cons.1 hxin with h | h
      · exact (List.nodup_cons.1 hndB).1 (h ▸ hx)
      · exact hdis x (List.mem_cons_of_mem _ hx) h
    obtain ⟨c1, hrun, hseg, hrl1⟩ :=
      reverseLoop_spec fuel (store c b { nb with next := prev }) n1 (b :: A) b1 B (some b) nb1
        hA1 hb1' hBr1 hdis1 (fun h => hn1 (List.mem_cons_of_mem _ h))
        (by simpa using hlen)
    refine ⟨c1, ?_, ?_, ?_⟩
    · simp only [reverseLoop, setNext, hb, hnx, load, hb1', reduceCtorEq, if_false]
      exact hrun
    · rw [List.getLast?_cons_cons]
      have : (b :: b1 :: B).reverse ++ A = (b1 :: B).reverse ++ b :: A := by
        simp
      rw [this]
      exact hseg
    · exact relink_trans hrl hrl1 (by simp) (fun x hx => List.mem_cons_of_mem _ hx)

theorem q_reverse_spec (fuel : Nat) (st : State) (q : queue_t) (ps : List Nat)
    (hq : st.q = some q) (hch : Chain st.cell q.head ps) (htl : q.tail = ps.getLast?)
    (hsz : q.size = ps.length) (hlen : 2 ≤ ps.length) (hfuel : ps.length ≤ fuel) :
    ∃ st1, q_reverse fuel st = Res.ok st1 ∧
      st1.q = some { head := q.tail, tail := q.head, size := q.size } ∧
      Chain st1.cell q.tail ps.reverse ∧ q.head = ps.reverse.getLast? ∧
      Relink st.cell st1.cell ps ∧ st1.brk = st.brk := by
  match ps, hch, htl, hsz, hlen, hfuel with
  | a :: b :: B, hch, htl, hsz, _, hfuel =>
    have hnd : (a :: b :: B).Nodup := chain_nodup hch
    obtain ⟨hh, na, hna, hrest⟩ := hch
    obtain ⟨hnx, nb, hnb, hBr⟩ := hrest
    have haB : a ∉ b :: B := (List.nodup_cons.1 hnd).1
    simp only [List.length_cons] at hfuel
    obtain ⟨c1, hrun, hseg, hrl⟩ :=
      reverseLoop_spec fuel st.cell a [] b B (some a) nb rfl hnb hBr (by simp) haB (by omega)
    rw [List.append_nil] at hseg
    have hc1a : c1 a = some na := by rw [(hrl a).2 haB]; exact hna
    have hszn : ¬ q.size ≤ 1 := by rw [hsz]; simp
    have htl1 : q.tail = (b :: B).getLast? := by rw [htl, List.getLast?_cons_cons]
    have hrl2 := relink_store hc1a none
    refine ⟨State.mk (store c1 a { na with next := none }) st.brk
      (some { head := q.tail, tail := q.head, size := q.size }), ?_, rfl, ?_, ?_, ?_, rfl⟩
    · simp only [q_reverse, hq, hszn, if_false, hh, load, hna, hnx, hnb, hrun, setNext, hc1a]
    · have hrev : (a :: b :: B).reverse = (b :: B).reverse ++ [a] := by simp
      rw [hrev]
      refine (seg_append _ [a] _ none).2 ⟨some a, ?_, rfl, _, store_same _ _ _, rfl⟩
      rw [htl1]
      refine relink_seg hrl2 ?_ hseg
      intro x hx hxa
      have hxa1 : x = a := by simpa using hxa
      rw [hxa1] at hx
      exact haB (List.mem_reverse.1 hx)
    · rw [hh]; simp
    · exact relink_trans hrl hrl2 (fun x hx => List.mem_cons_of_mem _ hx) (by simp)

theorem chain_head {c : Heap} : ∀ {ps : List Nat} {p : Ptr}, Chain c p ps → p = ps.head?
  | [], _, h => h
  | _ :: _, _, h => h.1

theorem chain_next {c : Heap} : ∀ {ps : List Nat} {p : Ptr}, Chain c p ps →
    ∀ (i x : Nat), ps[i]? = some x → nextAt c x = ps[i + 1]?
  | [], _, _, i, x, hx => by simp at hx
  | a :: ps, p, h, 0, x, hx => by
    obtain ⟨_, n, hn, hrest⟩ := h
    have hax : a = x := by simpa using hx
    subst hax
    have := chain_head hrest
    cases ps with
    | nil => simpa [nextAt, hn] using this
    | cons b ps => simpa [nextAt, hn] using this
  | a :: ps, p, h, i + 1, x, hx => by
    obtain ⟨_, n, hn, hrest⟩ := h
    have := chain_next hrest i x (by simpa using hx)
    simpa using this

theorem chain_cells_eq {c c1 : Heap} : ∀ {ps : List Nat} {p : Ptr}, Chain c p ps →
    Chain c1 p ps → (∀ a, (c1 a).map (fun n => n.value) = (c a).map (fun n => n.value)) →
    ∀ a ∈ ps, c1 a = c a
  | [], _, _, _, _, a, ha => by simp at ha
  | b :: ps, p, h, h1, hv, a, ha => by
    obtain ⟨_, n, hn, hrest⟩ := h
    obtain ⟨_, m, hm, hrest1⟩ := h1
    rcases List.mem_cons.1 ha with hab | hin
    · subst hab
      have hval := hv a
      rw [hn, hm] at hval
      have hval1 : m.value = n.value := by simpa using hval
      have hnext : m.next = n.next := (chain_head hrest1).trans (chain_head hrest).symm
      rw [hn, hm]
      cases m; cases n
      simp only [list_ele_t.mk.injEq] at hval1 hnext ⊢
      exact congrArg some (by simp_all)
    · have hrest1' : Chain c1 n.next ps := by
        have : m.next = n.next := (chain_head hrest1).trans (chain_head hrest).symm
        rw [← this]; exact hrest1
      exact chain_cells_eq hrest hrest1' hv a hin

theorem q_reverse_small (fuel : Nat) (st : State) (ps : List Nat) (hwf : WF st ps)
    (hlen : ps.length ≤ 1) : q_reverse fuel st = Res.ok st := by
  obtain ⟨q, hq, _, _, hsz⟩ := hwf
  simp [q_reverse, hq, hsz, hlen]

/-- Claim C6: on a well-formed queue with at least two elements and nodes `ps`,
`q_reverse` returns and the chain from the new head is `ps` reversed, made of
the same nodes: every originally adjacent pair `a`, `b` has `b->next = a`
afterwards, the new head is the old tail, the new tail is the old head with
`next = NULL`, and the count is unchanged.  On a well-formed queue of 0 or 1
elements and on the `NULL` handle `q_reverse` changes nothing. -/
theorem reverse_relinks (fuel : Nat) (st : State) (ps : List Nat) (hwf : WF st ps)
    (hlen : 2 ≤ ps.length) (hfuel : ps.length ≤ fuel) :
    (∃ q st1 q1, st.q = some q ∧ q_reverse fuel st = Res.ok st1 ∧ st1.q = some q1 ∧
      Chain st1.cell q1.head ps.reverse ∧
      (∀ (i a b : Nat), ps[i]? = some a → ps[i + 1]? = some b → nextAt st1.cell b = some a) ∧
      q1.head = q.tail ∧ q1.tail = q.head ∧
      (∃ t n, q1.tail = some t ∧ st1.cell t = some n ∧ n.next = none) ∧
      q1.size = q.size ∧ Relink st.cell st1.cell ps ∧ st1.brk = st.brk) ∧
    (∀ (f : Nat) (s : State) (l : List Nat), WF s l → l.length ≤ 1 →
      q_reverse f s = Res.ok s) ∧
    (∀ (f : Nat) (c : Heap) (brk : Nat),
      q_reverse f { cell := c, brk := brk, q := none } =
        Res.ok { cell := c, brk := brk, q := none }) := by
  refine ⟨?_, fun f s l hw hl => q_reverse_small f s l hw hl, fun f c brk => rfl⟩
  obtain ⟨q, hq, hch, htl, hsz⟩ := hwf
  obtain ⟨st1, hrun, hq1, hch1, hlast, hrl, hbrk⟩ :=
    q_reverse_spec fuel st q ps hq hch htl hsz hlen hfuel
  have hne : ps.reverse ≠ [] := by
    intro h
    have := congrArg List.length h
    simp only [List.length_reverse, List.length_nil] at this
    omega
  obtain ⟨t, ht⟩ : ∃ t, ps.reverse.getLast? = some t :=
    ⟨ps.reverse.getLast hne, List.getLast?_eq_getLast _ hne⟩
  obtain ⟨n, hn, hnx⟩ := chain_last_next hch1 ht
  refine ⟨q, st1, _, hq, hrun, hq1, hch1, ?_, rfl, rfl, ⟨t, n, by rw [← ht]; exact hlast, hn, hnx⟩,
    rfl, hrl, hbrk⟩
  intro i a b ha hb
  have hi : i + 1 < ps.length := (List.getElem?_eq_some_iff.1 hb).1
  have hj : ps.length - 2 - i < ps.reverse.length := by
    rw [List.length_reverse]; omega
  have h1 : ps.reverse[ps.length - 2 - i]? = some b := by
    rw [List.getElem?_reverse (by omega)]
    have : ps.length - 1 - (ps.length - 2 - i) = i + 1 := by omega
    rw [this]; exact hb
  have h2 : ps.reverse[ps.length - 2 - i + 1]? = some a := by
    rw [List.getElem?_reverse (by omega)]
    have : ps.length - 1 - (ps.length - 2 - i + 1) = i := by omega
    rw [this]; exact ha
  rw [chain_next hch1 _ b h1, h2]

/-- Witness of `reverse_relinks` on the queue "b", "a", "b". -/
theorem reverse_relinks_witness :
    (∃ q st1 q1, threeQueue.q = some q ∧ q_reverse 3 threeQueue = Res.ok st1 ∧
      st1.q = some q1 ∧ Chain st1.cell q1.head [0, 1, 2].reverse ∧
      (∀ (i a b : Nat), [0, 1, 2][i]? = some a → [0, 1, 2][i + 1]? = some b →
        nextAt st1.cell b = some a) ∧
      q1.head = q.tail ∧ q1.tail = q.head ∧
      (∃ t n, q1.tail = some t ∧ st1.cell t = some n ∧ n.next = none) ∧
      q1.size = q.size ∧ Relink threeQueue.cell st1.cell [0, 1, 2] ∧
      st1.brk = threeQueue.brk) ∧
    (∀ (f : Nat) (s : State) (l : List Nat), WF s l → l.length ≤ 1 →
      q_reverse f s = Res.ok s) ∧
    (∀ (f : Nat) (c : Heap) (brk : Nat),
      q_reverse f { cell := c, brk := brk, q := none } =
        Res.ok { cell := c, brk := brk, q := none }) :=
  reverse_relinks 3 threeQueue [0, 1, 2] ⟨_, rfl, by decide, rfl, rfl⟩ (by decide) (by decide)

/-- Claim C7: `q_reverse` is an involution.  On every well-formed queue, of any
length, applying `q_reverse` twice returns the very state it started from:
the same head, tail and count, and every node with its original `next`, so the
order of the nodes is the original one. -/
theorem reverse_involution (f1 f2 : Nat) (st : State) (ps : List Nat) (hwf : WF st ps)
    (hf1 : ps.length ≤ f1) (hf2 : ps.length ≤ f2) :
    ∃ st1 q, q_reverse f1 st = Res.ok st1 ∧ q_reverse f2 st1 = Res.ok st ∧
      st.q = some q ∧ Chain st.cell q.head ps := by
  by_cases hsmall : ps.length ≤ 1
  · have h1 := q_reverse_small f1 st ps hwf hsmall
    have h2 := q_reverse_small f2 st ps hwf hsmall
    obtain ⟨q, hq, hch, _, _⟩ := hwf
    exact ⟨st, q, h1, h2, hq, hch⟩
  · obtain ⟨q, hq, hch, htl, hsz⟩ := hwf
    have hlen : 2 ≤ ps.length := by omega
    obtain ⟨st1, hrun1, hq1, hch1, hlast1, hrl1, hbrk1⟩ :=
      q_reverse_spec f1 st q ps hq hch htl hsz hlen hf1
    obtain ⟨st2, hrun2, hq2, hch2, _, hrl2, hbrk2⟩ :=
      q_reverse_spec f2 st1 { head := q.tail, tail := q.head, size := q.size } ps.reverse
        hq1 hch1 hlast1 (by simp [hsz]) (by simpa using hlen) (by simpa using hf2)
    simp only [List.reverse_reverse] at hch2
    have hrl : Relink st.cell st2.cell ps :=
      relink_trans hrl1 hrl2 (fun x hx => hx) (fun x hx => List.mem_reverse.1 hx)
    have hcell : st2.cell = st.cell := by
      funext a
      by_cases ha : a ∈ ps
      · exact chain_cells_eq hch hch2 (fun x => (hrl x).1) a ha
      · exact (hrl a).2 ha
    have hst : st2 = st := by
      cases st2 with
      | mk c2 b2 q2 =>
        cases st with
        | mk c b q0 =>
          simp only at hcell hbrk2 hbrk1 hq2 hq
          subst hcell
          rw [hbrk2, hbrk1, hq2, hq]
    rw [hst] at hrun2
    exact ⟨st1, q, hrun1, hrun2, hq, hch⟩

/-- Witness of `reverse_involution` on the queue "b", "a", "b". -/
theorem reverse_involution_witness :
    ∃ st1 q, q_reverse 3 threeQueue = Res.ok st1 ∧ q_reverse 4 st1 = Res.ok threeQueue ∧
      threeQueue.q = some q ∧ Chain threeQueue.cell q.head [0, 1, 2] :=
  reverse_involution 3 4 threeQueue [0, 1, 2] ⟨_, rfl, by decide, rfl, rfl⟩
    (by decide) (by decide)

/-! ## Removing the last element -/

/-- Claim C9, at the failing input: from a fresh queue, `q_insert_head("a")`
followed by `q_remove_head` both return `true`, and the state they leave has
count 0 and head `NULL` but a tail that still points at the freed node 0, so
the queue invariant does not hold in this reachable state. -/
theorem invariant_broken_after_last_removal :
    ∃ st1 q1, runOps 8 4 (q_new (fun _ => none) 0 true)
        [Op.insertHead [97] true true, Op.removeHead none 0] = Res.ok ([true, true], st1) ∧
      st1.q = some q1 ∧ q1.size = 0 ∧ q1.head = none ∧ q1.tail = some 0 ∧
      st1.cell 0 = none ∧ ¬ Inv st1 := by
  refine ⟨_, _, rfl, rfl, rfl, rfl, rfl, rfl, ?_⟩
  intro h
  have h2 := h.2.1.1 rfl
  exact absurd h2 (by simp)

/-- Claim C10, at the failing input: on the one-element queue made by
`q_insert_tail("a")` on a fresh queue, `q_remove_head` returns `true` and leaves
count 0 and head `NULL`, but the tail still points at the freed node 0; the
following `q_insert_tail("b")` then writes `q->tail->next` through that dangling
pointer, which is a fault. -/
theorem last_removal_keeps_dangling_tail :
    ∃ st0 st1 q1, q_insert_tail 8 (q_new (fun _ => none) 0 true) [97] true true =
        Res.ok (true, st0) ∧ WF st0 [0] ∧
      q_remove_head 8 st0 none 0 = Res.ok (true, st1, none) ∧
      st1.q = some q1 ∧ q1.size = 0 ∧ q1.head = none ∧ q1.tail = some 0 ∧
      st1.cell 0 = none ∧
      q_insert_tail 8 st1 [98] true true = Res.fault := by
  refine ⟨_, _, _, rfl, ⟨_, rfl, by decide, rfl, rfl⟩, rfl, rfl, rfl, rfl, rfl, rfl, rfl⟩

/-! ## The output buffer of `q_remove_head` -/

theorem spWriteCount_zero (w L : Nat) : spWriteCount w L 0 = 0 := by
  unfold spWriteCount
  have hpos : 0 < 2 ^ w := Nat.pow_pos (by decide)
  have h0 : ¬ 0 > (L + 1) % 2 ^ w := Nat.not_lt_zero _
  simp only [h0, if_false, Nat.zero_add]
  have h1 : (2 ^ w - 1) % 2 ^ w = 2 ^ w - 1 := Nat.mod_eq_of_lt (by omega)
  have h2 : 2 ^ w - 1 + 1 = 2 ^ w := by omega
  rw [h1, h2, Nat.mod_self]

theorem spWriteCount_pos (w L bufsize : Nat) (hpos : 0 < bufsize) (hw : bufsize < 2 ^ w)
    (hL : L + 1 < 2 ^ w) :
    spWriteCount w L bufsize = if bufsize > L + 1 then L + 2 else bufsize :=
  write_count_eq w L bufsize hpos hw hL

theorem spWriteCount_le (w L bufsize : Nat) (hw : bufsize < 2 ^ w) :
    spWriteCount w L bufsize ≤ bufsize := by
  by_cases h0 : bufsize = 0
  · subst h0
    rw [spWriteCount_zero]
  · unfold spWriteCount
    have hpos : 0 < 2 ^ w := Nat.pow_pos (by decide)
    by_cases h : bufsize > (L + 1) % 2 ^ w
    · simp only [h, if_true]
      exact Nat.le_trans (Nat.mod_le _ _) h
    · simp only [h, if_false]
      have h1 : bufsize + 2 ^ w - 1 = (bufsize - 1) + 2 ^ w := by omega
      have h3 : (bufsize - 1) % 2 ^ w = bufsize - 1 := Nat.mod_eq_of_lt (by omega)
      have h2 : bufsize - 1 + 1 = bufsize := by omega
      rw [h1, Nat.add_mod_right, h3, h2]
      exact Nat.mod_le _ _

theorem snprintfBytes_length_le (n : Nat) (v : CStr) : (snprintfBytes n v).length ≤ n := by
  unfold snprintfBytes
  split
  · simp
  · simp only [List.length_append, List.length_take, List.length_singleton]
    omega

/-- The two writes of `q_remove_head` with count `n` fit in a buffer of at least
`n` bytes, keep its length and leave every byte from index `n` on as it was. -/
theorem buffer_frame (n : Nat) (v : CStr) (buf : List Nat) (hn : n ≤ buf.length) :
    ∃ buf1 buf2, writeAt0 buf (List.replicate n 0) = Res.ok buf1 ∧
      writeAt0 buf1 (snprintfBytes n v) = Res.ok buf2 ∧
      buf2.length = buf.length ∧ buf2.drop n = buf.drop n := by
  have hm := snprintfBytes_length_le n v
  generalize snprintfBytes n v = bytes at hm
  have hb1 : (List.replicate n 0 ++ buf.drop n).length = buf.length := by
    rw [List.length_append, List.length_replicate, List.length_drop]
    omega
  refine ⟨List.replicate n 0 ++ buf.drop n,
    bytes ++ (List.replicate n 0 ++ buf.drop n).drop bytes.length, ?_, ?_, ?_, ?_⟩
  · unfold writeAt0
    rw [List.length_replicate, if_pos hn]
  · unfold writeAt0
    rw [if_pos (by rw [hb1]; omega)]
  · rw [List.length_append, List.length_drop, hb1]
    omega
  · rw [List.drop_append_eq_append_drop, List.drop_eq_nil_of_le hm, List.nil_append,
      List.drop_drop]
    have h1 : bytes.length + (n - bytes.length) = n := by omega
    rw [h1]
    rw [List.drop_append_eq_append_drop, List.length_replicate, Nat.sub_self, List.drop_zero,
      List.drop_eq_nil_of_le (by rw [List.length_replicate]), List.nil_append]

/-- On a queue with a positive count and a live head node, `q_remove_head` with
a buffer that really has `bufsize` bytes returns `true`, unlinks and frees the
head node and performs exactly the two buffer writes with `spWriteCount`. -/
theorem q_remove_head_run (w : Nat) (st : State) (q : queue_t) (a : Nat) (n : list_ele_t)
    (buf : List Nat) (bufsize : Nat)
    (hq : st.q = some q) (hnz : q.size ≠ 0) (hh : q.head = some a) (hn : st.cell a = some n)
    (hw : bufsize < 2 ^ w) (hbuf : bufsize ≤ buf.length) :
    ∃ buf1 buf2,
      writeAt0 buf (List.replicate (spWriteCount w (strlen n.value) bufsize) 0) = Res.ok buf1 ∧
      writeAt0 buf1 (snprintfBytes (spWriteCount w (strlen n.value) bufsize) n.value) =
        Res.ok buf2 ∧
      q_remove_head w st (some buf) bufsize =
        Res.ok (true, State.mk (release st.cell a) st.brk
          (some (queue_t.mk n.next q.tail (q.size - 1))), some buf2) ∧
      buf2.length = buf.length ∧
      buf2.drop (spWriteCount w (strlen n.value) bufsize) =
        buf.drop (spWriteCount w (strlen n.value) bufsize) := by
  have hle := spWriteCount_le w (strlen n.value) bufsize hw
  obtain ⟨b1, b2, hw1, hw2, hlen, hdrop⟩ :=
    buffer_frame (spWriteCount w (strlen n.value) bufsize) n.value buf (by omega)
  refine ⟨b1, b2, hw1, hw2, ?_, hlen, hdrop⟩
  unfold spWriteCount at hw1 hw2
  simp only [q_remove_head, hq, hnz, if_false, hh, hn]
  simp only [] at hw1 hw2
  rw [hw1]
  simp only []
  rw [hw2]

theorem buffer_string (w : Nat) (v : CStr) (buf b1 b2 : List Nat) (bufsize : Nat)
    (hv : ∀ b ∈ v, b ≠ 0) (hpos : 0 < bufsize) (hw : bufsize < 2 ^ w)
    (hL : v.length + 1 < 2 ^ w) (hbuf : bufsize ≤ buf.length)
    (hw1 : writeAt0 buf (List.replicate (spWriteCount w (strlen v) bufsize) 0) = Res.ok b1)
    (hw2 : writeAt0 b1 (snprintfBytes (spWriteCount w (strlen v) bufsize) v) = Res.ok b2) :
    cstrOf b2 = v.take (bufsize - 1) := by
  obtain ⟨c1, c2, h1, h2, _, hc⟩ := buffer_writes w v buf bufsize hv hpos hw hL hbuf
  unfold spWriteCount at hw1 hw2
  simp only [] at hw1 hw2
  rw [h1] at hw1
  have e1 : c1 = b1 := by injection hw1
  subst e1
  rw [h2] at hw2
  have e2 : c2 = b2 := by injection hw2
  subst e2
  exact hc

theorem take_min_length {α : Type} (v : List α) (k : Nat) :
    v.take (min v.length k) = v.take k := by
  by_cases h : k ≤ v.length
  · rw [Nat.min_eq_right h]
  · have h1 : v.length ≤ k := by omega
    rw [Nat.min_eq_left h1, List.take_of_length_le (Nat.le_refl _), List.take_of_length_le h1]

/-- Claim C11: on a well-formed non-empty queue whose head value `v` has no NUL
byte, with a non-null buffer that really has `bufsize` bytes, `q_remove_head`
returns `true`, unlinks and frees the head node and lowers the count by 1; when
`bufsize ≥ 1` the buffer then holds, as a terminated string, the first
`min L (bufsize - 1)` bytes of `v` (all of `v` when `bufsize > L`); when
`bufsize = 0` the buffer is unchanged. -/
theorem remove_head_truncation (w : Nat) (st : State) (a : Nat) (ps : List Nat)
    (buf : List Nat) (bufsize : Nat) (hwf : WF st (a :: ps))
    (hv : ∀ b ∈ valueAt st.cell a, b ≠ 0) (hL : (valueAt st.cell a).length + 1 < 2 ^ w)
    (hw : bufsize < 2 ^ w) (hbuf : bufsize ≤ buf.length) :
    ∃ q st1 q1 buf1, st.q = some q ∧
      q_remove_head w st (some buf) bufsize = Res.ok (true, st1, some buf1) ∧
      st1.q = some q1 ∧ Chain st1.cell q1.head ps ∧ st1.cell a = none ∧
      q1.size + 1 = q.size ∧ buf1.length = buf.length ∧
      (1 ≤ bufsize → cstrOf buf1 =
        (valueAt st.cell a).take (min (valueAt st.cell a).length (bufsize - 1))) ∧
      (bufsize > (valueAt st.cell a).length → cstrOf buf1 = valueAt st.cell a) ∧
      (bufsize = 0 → buf1 = buf) := by
  obtain ⟨q, hq, hch, _, hsz⟩ := hwf
  have hnd : (a :: ps).Nodup := chain_nodup hch
  obtain ⟨hh, n, hn, hrest⟩ := hch
  have hva : valueAt st.cell a = n.value := by simp [valueAt, hn]
  rw [hva] at hv hL ⊢
  have hnz : q.size ≠ 0 := by rw [hsz]; simp
  have hani : a ∉ ps := (List.nodup_cons.1 hnd).1
  obtain ⟨b1, b2, hw1, hw2, hrun, hlen, hdrop⟩ :=
    q_remove_head_run w st q a n buf bufsize hq hnz hh hn hw hbuf
  have hstr : 1 ≤ bufsize → cstrOf b2 = n.value.take (bufsize - 1) := fun hpos =>
    buffer_string w n.value buf b1 b2 bufsize hv hpos hw hL hbuf hw1 hw2
  refine ⟨q, _, _, b2, hq, hrun, rfl, ?_, release_same _ _, ?_, hlen, ?_, ?_, ?_⟩
  · exact chain_congr (fun x hx => release_other _ _ _ (fun h => hani (h ▸ hx))) hrest
  · show q.size - 1 + 1 = q.size
    omega
  · intro hpos
    rw [take_min_length]
    exact hstr hpos
  · intro hbig
    rw [hstr (by omega), List.take_of_length_le (by omega)]
  · intro h0
    subst h0
    rw [spWriteCount_zero] at hdrop
    simpa using hdrop

/-- Witness of `remove_head_truncation`: "abc" read into a three-byte buffer. -/
theorem remove_head_truncation_witness :
    ∃ q st1 q1 buf1, oneQueue.q = some q ∧
      q_remove_head 8 oneQueue (some [7, 7, 7]) 3 = Res.ok (true, st1, some buf1) ∧
      st1.q = some q1 ∧ Chain st1.cell q1.head [] ∧ st1.cell 0 = none ∧
      q1.size + 1 = q.size ∧ buf1.length = [7, 7, 7].length ∧
      (1 ≤ 3 → cstrOf buf1 =
        (valueAt oneQueue.cell 0).take (min (valueAt oneQueue.cell 0).length (3 - 1))) ∧
      (3 > (valueAt oneQueue.cell 0).length → cstrOf buf1 = valueAt oneQueue.cell 0) ∧
      (3 = 0 → buf1 = [7, 7, 7]) :=
  remove_head_truncation 8 oneQueue 0 [] [7, 7, 7] 3 ⟨_, rfl, by decide, rfl, rfl⟩
    (by decide) (by decide) (by decide) (by decide)

/-- Claim C12: on the `NULL` handle and on a queue whose count is 0,
`q_remove_head` returns `false` and leaves the whole state (head, tail, count,
nodes) and the output buffer exactly as they were. -/
theorem remove_head_empty_fails (w : Nat) (st : State) (sp : Option (List Nat)) (bufsize : Nat)
    (h : st.q = none ∨ ∃ q, st.q = some q ∧ q.size = 0) :
    q_remove_head w st sp bufsize = Res.ok (false, st, sp) := by
  rcases h with h | ⟨q, hq, hz⟩
  · simp [q_remove_head, h]
  · simp [q_remove_head, hq, hz]

/-- Witness of `remove_head_empty_fails` on a freshly created queue. -/
theorem remove_head_empty_fails_witness :
    q_remove_head 8 emptyQueue (some [7, 7, 7]) 3 = Res.ok (false, emptyQueue, some [7, 7, 7]) :=
  remove_head_empty_fails 8 emptyQueue (some [7, 7, 7]) 3 (Or.inr ⟨_, rfl, rfl⟩)

/-- Claim C19: `q_remove_head` never writes past the caller's buffer.  For a
stored string of length `L` (fitting the address space with its terminator)
and a capacity `bufsize` of type `size_t`, the number of bytes cleared and
written, `spSize + 1`, is at most `bufsize`: it is 0 when `bufsize` is 0,
`L + 2` when `bufsize > L + 1`, and `bufsize` otherwise.  Run on a buffer that
really has `bufsize` bytes, the function does not fault, keeps the buffer's
length and leaves every byte from index `spSize + 1` on, hence from index
`bufsize` on, unchanged. -/
theorem remove_head_write_bound (w L bufsize : Nat) (hw : bufsize < 2 ^ w)
    (hL : L + 1 < 2 ^ w) :
    spWriteCount w L bufsize ≤ bufsize ∧
    (bufsize = 0 → spWriteCount w L bufsize = 0) ∧
    (bufsize > L + 1 → spWriteCount w L bufsize = L + 2) ∧
    (0 < bufsize → bufsize ≤ L + 1 → spWriteCount w L bufsize = bufsize) ∧
    (∀ (st : State) (q : queue_t) (a : Nat) (n : list_ele_t) (buf : List Nat),
      st.q = some q → q.size ≠ 0 → q.head = some a → st.cell a = some n →
      strlen n.value = L → bufsize ≤ buf.length →
      ∃ buf1 buf2 st1,
        writeAt0 buf (List.replicate (spWriteCount w L bufsize) 0) = Res.ok buf1 ∧
        writeAt0 buf1 (snprintfBytes (spWriteCount w L bufsize) n.value) = Res.ok buf2 ∧
        q_remove_head w st (some buf) bufsize = Res.ok (true, st1, some buf2) ∧
        buf2.length = buf.length ∧
        buf2.drop (spWriteCount w L bufsize) = buf.drop (spWriteCount w L bufsize) ∧
        buf2.drop bufsize = buf.drop bufsize) := by
  have hle := spWriteCount_le w L bufsize hw
  refine ⟨hle, ?_, ?_, ?_, ?_⟩
  · intro h0
    rw [h0, spWriteCount_zero]
  · intro hbig
    rw [spWriteCount_pos w L bufsize (by omega) hw hL, if_pos hbig]
  · intro hpos hsmall
    rw [spWriteCount_pos w L bufsize hpos hw hL, if_neg (by omega)]
  · intro st q a n buf hq hnz hh hn hlen hbuf
    obtain ⟨b1, b2, hw1, hw2, hrun, hl, hdrop⟩ :=
      q_remove_head_run w st q a n buf bufsize hq hnz hh hn hw hbuf
    rw [hlen] at hw1 hw2 hdrop
    refine ⟨b1, b2, _, hw1, hw2, hrun, hl, hdrop, ?_⟩
    have hsplit : bufsize = spWriteCount w L bufsize + (bufsize - spWriteCount w L bufsize) := by
      omega
    rw [hsplit, ← List.drop_drop, ← List.drop_drop, hdrop]

/-- Witness of `remove_head_write_bound` for a three-byte string, a 64-bit
`size_t` and a capacity of two bytes. -/
theorem remove_head_write_bound_witness :
    spWriteCount 64 3 2 ≤ 2 ∧
    (2 = 0 → spWriteCount 64 3 2 = 0) ∧
    (2 > 3 + 1 → spWriteCount 64 3 2 = 3 + 2) ∧
    (0 < 2 → 2 ≤ 3 + 1 → spWriteCount 64 3 2 = 2) ∧
    (∀ (st : State) (q : queue_t) (a : Nat) (n : list_ele_t) (buf : List Nat),
      st.q = some q → q.size ≠ 0 → q.head = some a → st.cell a = some n →
      strlen n.value = 3 → 2 ≤ buf.length →
      ∃ buf1 buf2 st1,
        writeAt0 buf (List.replicate (spWriteCount 64 3 2) 0) = Res.ok buf1 ∧
        writeAt0 buf1 (snprintfBytes (spWriteCount 64 3 2) n.value) = Res.ok buf2 ∧
        q_remove_head 64 st (some buf) 2 = Res.ok (true, st1, some buf2) ∧
        buf2.length = buf.length ∧
        buf2.drop (spWriteCount 64 3 2) = buf.drop (spWriteCount 64 3 2) ∧
        buf2.drop 2 = buf.drop 2) :=
  remove_head_write_bound 64 3 2 (by decide) (by decide)

/-! ## Insertion: failure and success -/

theorem q_insert_head_fails (w : Nat) (st : State) (s : CStr) (nodeOk valOk : Bool)
    (h : st.q = none ∨ nodeOk = false ∨ valOk = false) :
    q_insert_head w st s nodeOk valOk = Res.ok (false, st) := by
  unfold q_insert_head
  cases hq : st.q with
  | none => rfl
  | some q =>
    rcases h with h | h | h
    · rw [hq] at h; exact absurd h (by simp)
    · simp [h]
    · cases nodeOk <;> simp [h]

theorem q_insert_tail_fails (w : Nat) (st : State) (s : CStr) (nodeOk valOk : Bool)
    (h : st.q = none ∨ nodeOk = false ∨ valOk = false) :
    q_insert_tail w st s nodeOk valOk = Res.ok (false, st) := by
  unfold q_insert_tail
  cases hq : st.q with
  | none => rfl
  | some q =>
    rcases h with h | h | h
    · rw [hq] at h; exact absurd h (by simp)
    · simp [h]
    · cases nodeOk <;> simp [h]

theorem vals_head_eq {c1 : Heap} {a : Nat} {ps : List Nat} {s : CStr} {xs : List CStr}
    (h : vals c1 (a :: ps) = s :: xs) : valueAt c1 a = s := by
  unfold vals at h
  rw [List.map_cons] at h
  exact (List.cons.inj h).1

theorem vals_last_eq {c1 : Heap} {a : Nat} {ps : List Nat} {s : CStr} {xs : List CStr}
    (h : vals c1 (ps ++ [a]) = xs ++ [s]) : valueAt c1 a = s := by
  unfold vals at h
  rw [List.map_append, List.map_singleton] at h
  have := congrArg List.getLast? h
  simpa using this

/-- On the `NULL` handle or on a well-formed queue both insertions return: `false`
exactly in the three failure cases, with the state unchanged, and otherwise
`true` with a well-formed queue that has the new node in place. -/
theorem insert_on_well_formed (w : Nat) (st : State) (ps : List Nat) (s : CStr)
    (nodeOk valOk : Bool)
    (hst : st.q = none ∨ (WF st ps ∧ ∀ a ∈ ps, a < st.brk))
    (hs : ∀ b ∈ s, b ≠ 0) (hlen : s.length + 1 < 2 ^ w) :
    (∃ r st1, q_insert_head w st s nodeOk valOk = Res.ok (r, st1) ∧
      (r = false ↔ (st.q = none ∨ nodeOk = false ∨ valOk = false)) ∧
      (r = false → st1 = st) ∧
      (r = true → q_size st1 = q_size st + 1 ∧ WF st1 (st.brk :: ps) ∧
        valueAt st1.cell st.brk = s)) ∧
    (∃ r st1, q_insert_tail w st s nodeOk valOk = Res.ok (r, st1) ∧
      (r = false ↔ (st.q = none ∨ nodeOk = false ∨ valOk = false)) ∧
      (r = false → st1 = st) ∧
      (r = true → q_size st1 = q_size st + 1 ∧ WF st1 (ps ++ [st.brk]) ∧
        valueAt st1.cell st.brk = s)) := by
  by_cases hfail : st.q = none ∨ nodeOk = false ∨ valOk = false
  · exact ⟨⟨false, st, q_insert_head_fails w st s nodeOk valOk hfail,
        ⟨fun _ => hfail, fun _ => rfl⟩, fun _ => rfl, fun h => absurd h (by simp)⟩,
      ⟨false, st, q_insert_tail_fails w st s nodeOk valOk hfail,
        ⟨fun _ => hfail, fun _ => rfl⟩, fun _ => rfl, fun h => absurd h (by simp)⟩⟩
  · have hqn : st.q ≠ none := fun h => hfail (Or.inl h)
    have hn : nodeOk = true := by
      cases nodeOk
      · exact absurd (Or.inr (Or.inl rfl)) hfail
      · rfl
    have hv : valOk = true := by
      cases valOk
      · exact absurd (Or.inr (Or.inr rfl)) hfail
      · rfl
    subst hn; subst hv
    rcases hst with hnull | ⟨hwf, hfr⟩
    · exact absurd hnull hqn
    · obtain ⟨q, hq, hch, htl, hsz⟩ := hwf
      obtain ⟨st1, hrun1, hwf1, hv1, _⟩ :=
        q_insert_head_spec w st q ps s hq hch htl hsz hfr hs hlen
      obtain ⟨st2, hrun2, hwf2, hv2, _⟩ :=
        q_insert_tail_spec w st q ps s hq hch htl hsz hfr hs hlen
      have hsize : ∀ (st' : State) (l : List Nat), WF st' l → l.length = ps.length + 1 →
          q_size st' = q_size st + 1 := by
        intro st' l hw' hl
        obtain ⟨q', hq', _, _, hsz'⟩ := hw'
        simp only [q_size, hq, hq', hsz, hsz', hl]
      refine ⟨⟨true, st1, hrun1, ⟨fun h => absurd h (by simp), fun h => absurd h hfail⟩,
          fun h => absurd h (by simp),
          fun _ => ⟨hsize st1 _ hwf1 (by simp), hwf1, vals_head_eq hv1⟩⟩,
        ⟨true, st2, hrun2, ⟨fun h => absurd h (by simp), fun h => absurd h hfail⟩,
          fun h => absurd h (by simp),
          fun _ => ⟨hsize st2 _ hwf2 (by simp), hwf2, vals_last_eq hv2⟩⟩⟩

/-- Claim C15: on an empty queue (head `NULL`, tail `NULL`, count 0)
`q_insert_tail` and `q_insert_head` leave the same state: one node holding `s`
with `next = NULL` that is both head and tail, and count 1.  On a well-formed
non-empty queue with values `xs`, `q_insert_tail` yields the values `xs`
followed by `s`; the previous tail's `next` is the new node and the tail is the
new node. -/
theorem insert_tail_refines (w : Nat) (st : State) (ps : List Nat) (s : CStr)
    (hwf : WF st ps) (hne : ps ≠ []) (hfr : ∀ a ∈ ps, a < st.brk)
    (hs : ∀ b ∈ s, b ≠ 0) (hlen : s.length + 1 < 2 ^ w) :
    (∀ (c : Heap) (brk : Nat) (nodeOk valOk : Bool),
      q_insert_tail w (State.mk c brk (some (queue_t.mk none none 0))) s nodeOk valOk =
        q_insert_head w (State.mk c brk (some (queue_t.mk none none 0))) s nodeOk valOk ∧
      q_insert_tail w (State.mk c brk (some (queue_t.mk none none 0))) s true true =
        Res.ok (true, State.mk (store c brk (list_ele_t.mk s none)) (brk + 1)
          (some (queue_t.mk (some brk) (some brk) 1)))) ∧
    (∃ q t st1 q1 nt, st.q = some q ∧ q.tail = some t ∧
      q_insert_tail w st s true true = Res.ok (true, st1) ∧ st1.q = some q1 ∧
      WF st1 (ps ++ [st.brk]) ∧ vals st1.cell (ps ++ [st.brk]) = vals st.cell ps ++ [s] ∧
      st1.cell t = some nt ∧ nt.next = some st.brk ∧ q1.tail = some st.brk ∧
      q1.head = q.head ∧ q1.size = q.size + 1) := by
  have hv := stored_value_eq w s hs hlen
  constructor
  · intro c brk nodeOk valOk
    constructor
    · cases nodeOk <;> cases valOk <;> simp [q_insert_tail, q_insert_head]
    · simp [q_insert_tail, hv]
  · obtain ⟨q, hq, hch, htl, hsz⟩ := hwf
    obtain ⟨st1, hrun, hwf1, hv1, _⟩ :=
      q_insert_tail_spec w st q ps s hq hch htl hsz hfr hs hlen
    obtain ⟨q1, hq1, hch1, htl1, hsz1⟩ := hwf1
    obtain ⟨t, ht⟩ : ∃ t, ps.getLast? = some t :=
      ⟨ps.getLast hne, List.getLast?_eq_getLast _ hne⟩
    have hidx : (ps ++ [st.brk])[ps.length - 1]? = some t := by
      have hlt : ps.length - 1 < ps.length := by
        cases ps with
        | nil => exact absurd rfl hne
        | cons _ _ => simp
      rw [List.getElem?_append_left hlt, ← List.getLast?_eq_getElem?]
      exact ht
    have hnext := chain_next hch1 (ps.length - 1) t hidx
    have hplus : ps.length - 1 + 1 = ps.length := by
      cases ps with
      | nil => exact absurd rfl hne
      | cons _ _ => simp
    rw [hplus, List.getElem?_append_right (Nat.le_refl _)] at hnext
    simp only [Nat.sub_self, List.getElem?_cons_zero] at hnext
    obtain ⟨nt, hnt⟩ := chain_live hch1 t (List.mem_append_left _ (List.mem_of_getLast?_eq_some ht))
    have hntn : nt.next = some st.brk := by
      simpa [nextAt, hnt] using hnext
    have hhead : q1.head = q.head := by
      rw [chain_head hch1, chain_head hch]
      cases ps with
      | nil => exact absurd rfl hne
      | cons _ _ => rfl
    refine ⟨q, t, st1, q1, nt, hq, by rw [htl, ht], hrun, hq1,
      ⟨q1, hq1, hch1, htl1, hsz1⟩, hv1, hnt, hntn, by rw [htl1]; simp, hhead, ?_⟩
    rw [hsz1, hsz]; simp

/-- Witness of `insert_tail_refines`: "de" appended to the queue holding "abc". -/
theorem insert_tail_refines_witness :
    (∀ (c : Heap) (brk : Nat) (nodeOk valOk : Bool),
      q_insert_tail 8 (State.mk c brk (some (queue_t.mk none none 0))) [100, 101] nodeOk valOk =
        q_insert_head 8 (State.mk c brk (some (queue_t.mk none none 0))) [100, 101]
          nodeOk valOk ∧
      q_insert_tail 8 (State.mk c brk (some (queue_t.mk none none 0))) [100, 101] true true =
        Res.ok (true, State.mk (store c brk (list_ele_t.mk [100, 101] none)) (brk + 1)
          (some (queue_t.mk (some brk) (some brk) 1)))) ∧
    (∃ q t st1 q1 nt, oneQueue.q = some q ∧ q.tail = some t ∧
      q_insert_tail 8 oneQueue [100, 101] true true = Res.ok (true, st1) ∧ st1.q = some q1 ∧
      WF st1 ([0] ++ [oneQueue.brk]) ∧
      vals st1.cell ([0] ++ [oneQueue.brk]) = vals oneQueue.cell [0] ++ [[100, 101]] ∧
      st1.cell t = some nt ∧ nt.next = some oneQueue.brk ∧ q1.tail = some oneQueue.brk ∧
      q1.head = q.head ∧ q1.size = q.size + 1) :=
  insert_tail_refines 8 oneQueue [0] [100, 101] ⟨_, rfl, by decide, rfl, rfl⟩
    (by decide) (by decide) (by decide) (by decide)

/-! ## A worked example -/

/-- Claim C16: starting from an empty queue, `q_insert_tail` of "banana",
"apple" and "cherry" gives size 3; `q_sort` then gives the order apple, banana,
cherry; `q_reverse` then gives cherry, banana, apple; `q_remove_head` with a
sixteen-byte buffer then returns `true`, leaves "cherry" in the buffer and
size 2. -/
theorem worked_example :
    ∃ st3 st4 st5 st6 buf,
      insertTails 64 emptyQueue [bytesOf "banana", bytesOf "apple", bytesOf "cherry"] =
        Res.ok ([true, true, true], st3) ∧
      q_size st3 = 3 ∧ WF st3 [0, 1, 2] ∧
      q_sort 4 st3 = Res.ok st4 ∧ WF st4 [1, 0, 2] ∧
      vals st4.cell [1, 0, 2] = [bytesOf "apple", bytesOf "banana", bytesOf "cherry"] ∧
      q_reverse 3 st4 = Res.ok st5 ∧ WF st5 [2, 0, 1] ∧
      vals st5.cell [2, 0, 1] = [bytesOf "cherry", bytesOf "banana", bytesOf "apple"] ∧
      q_remove_head 64 st5 (some (List.replicate 16 255)) 16 = Res.ok (true, st6, some buf) ∧
      cstrOf buf = bytesOf "cherry" ∧ q_size st6 = 2 ∧
      (∃ q6, st6.q = some q6 ∧ Chain st6.cell q6.head [0, 1]) ∧
      vals st6.cell [0, 1] = [bytesOf "banana", bytesOf "apple"] := by
  refine ⟨_, _, _, _, _, rfl, rfl, ⟨_, rfl, by decide, rfl, rfl⟩, rfl,
    ⟨_, rfl, by decide, rfl, rfl⟩, by decide, rfl, ⟨_, rfl, by decide, rfl, rfl⟩, by decide,
    rfl, by decide, rfl, ⟨_, rfl, by decide⟩, by decide⟩

/-! ## The tie-break of `merge` -/

/-- Claim C17 fails as stated: with list A the node 0 and list B the node 1,
both holding "a", B's value is not strictly less than A's and yet `merge`
emits B's node first; accordingly `q_sort` turns the queue of the equal-valued
nodes 0, 1 into the chain 1, 0. -/
theorem tie_emits_B_first :
    ¬ (strcmp (valueAt tiePair.cell 1) (valueAt tiePair.cell 0) < 0) ∧
    (∃ st1, merge 2 tiePair (some 0) (some 1) = Res.ok (st1, some 1) ∧
      Chain st1.cell (some 1) [1, 0]) ∧
    (∃ st2 q2, Chain tieQueue.cell (some 0) [0, 1] ∧ q_sort 3 tieQueue = Res.ok st2 ∧
      st2.q = some q2 ∧ Chain st2.cell q2.head [1, 0]) := by
  refine ⟨by decide, ⟨_, rfl, by decide⟩, ⟨_, _, by decide, rfl, rfl, by decide⟩⟩

/-- Claim C17, amended: `merge` on two disjoint non-empty chains A and B returns
the chain `mergeList`, in which at every comparison step B's element is emitted
exactly when `strcmp(B->value, A->value) ≤ 0`, that is when B's value is less
than or equal to A's, and A's element otherwise; in particular the first node
is B's exactly then, and on equal values B's element is emitted first. -/
theorem merge_tie_break (fuel : Nat) (st : State) (q : queue_t) (a : Nat) (as : List Nat)
    (b : Nat) (bs : List Nat) (pa pb : Ptr)
    (hq : st.q = some q) (hA : Chain st.cell pa (a :: as)) (hB : Chain st.cell pb (b :: bs))
    (hdis : ∀ x ∈ a :: as, x ∉ b :: bs)
    (hlen : (a :: as).length + (b :: bs).length ≤ fuel) :
    ∃ st1 h, merge fuel st pa pb = Res.ok (st1, h) ∧
      Chain st1.cell h (mergeList (valueAt st.cell) (a :: as) (b :: bs)) ∧
      (h = some b ↔ strcmp (valueAt st.cell b) (valueAt st.cell a) ≤ 0) ∧
      (h = some a ↔ strcmp (valueAt st.cell b) (valueAt st.cell a) > 0) ∧
      (valueAt st.cell b = valueAt st.cell a → h = some b) ∧
      (∀ (x : Nat) (xs : List Nat) (y : Nat) (ys : List Nat),
        mergeList (valueAt st.cell) (x :: xs) (y :: ys) =
          if strcmp (valueAt st.cell y) (valueAt st.cell x) ≤ 0
          then y :: mergeList (valueAt st.cell) (x :: xs) ys
          else x :: mergeList (valueAt st.cell) xs (y :: ys)) := by
  obtain ⟨st1, h, hrun, hch, _, _, _⟩ := merge_spec fuel st q a as b bs pa pb hq hA hB hdis hlen
  have hab : a ≠ b := fun e => hdis a (List.mem_cons_self _ _) (by rw [e]; exact List.mem_cons_self _ _)
  have hstep : ∀ (x : Nat) (xs : List Nat) (y : Nat) (ys : List Nat),
      mergeList (valueAt st.cell) (x :: xs) (y :: ys) =
        if strcmp (valueAt st.cell y) (valueAt st.cell x) ≤ 0
        then y :: mergeList (valueAt st.cell) (x :: xs) ys
        else x :: mergeList (valueAt st.cell) xs (y :: ys) := by
    intro x xs y ys
    rw [mergeList_cons_cons]
    by_cases hgt : strcmp (valueAt st.cell y) (valueAt st.cell x) > 0
    · rw [if_pos hgt, if_neg (by omega)]
    · rw [if_neg hgt, if_pos (by omega)]
  have hhead := chain_head hch
  rw [hstep] at hhead
  have hB_iff : h = some b ↔ strcmp (valueAt st.cell b) (valueAt st.cell a) ≤ 0 := by
    by_cases hle : strcmp (valueAt st.cell b) (valueAt st.cell a) ≤ 0
    · rw [if_pos hle] at hhead
      exact ⟨fun _ => hle, fun _ => hhead⟩
    · rw [if_neg hle] at hhead
      refine ⟨fun e => ?_, fun e => absurd e hle⟩
      rw [hhead] at e
      exact absurd (Option.some.inj e) hab
  have hA_iff : h = some a ↔ strcmp (valueAt st.cell b) (valueAt st.cell a) > 0 := by
    by_cases hle : strcmp (valueAt st.cell b) (valueAt st.cell a) ≤ 0
    · rw [if_pos hle] at hhead
      refine ⟨fun e => ?_, fun e => absurd hle (by omega)⟩
      rw [hhead] at e
      exact absurd (Option.some.inj e).symm hab
    · rw [if_neg hle] at hhead
      exact ⟨fun _ => by omega, fun _ => hhead⟩
  refine ⟨st1, h, hrun, hch, hB_iff, hA_iff, ?_, hstep⟩
  intro e
  exact hB_iff.2 (by rw [e, strcmp_self])

/-- Witness of `merge_tie_break` on the two one-node lists holding "a". -/
theorem merge_tie_break_witness :
    ∃ st1 h, merge 2 tiePair (some 0) (some 1) = Res.ok (st1, h) ∧
      Chain st1.cell h (mergeList (valueAt tiePair.cell) (0 :: []) (1 :: [])) ∧
      (h = some 1 ↔ strcmp (valueAt tiePair.cell 1) (valueAt tiePair.cell 0) ≤ 0) ∧
      (h = some 0 ↔ strcmp (valueAt tiePair.cell 1) (valueAt tiePair.cell 0) > 0) ∧
      (valueAt tiePair.cell 1 = valueAt tiePair.cell 0 → h = some 1) ∧
      (∀ (x : Nat) (xs : List Nat) (y : Nat) (ys : List Nat),
        mergeList (valueAt tiePair.cell) (x :: xs) (y :: ys) =
          if strcmp (valueAt tiePair.cell y) (valueAt tiePair.cell x) ≤ 0
          then y :: mergeList (valueAt tiePair.cell) (x :: xs) ys
          else x :: mergeList (valueAt tiePair.cell) xs (y :: ys)) :=
  merge_tie_break 2 tiePair _ 0 [] 1 [] (some 0) (some 1) rfl (by decide) (by decide)
    (by decide) (by decide)

/-! ## The split of `mergeSort` -/

theorem split_spec (fuel : Nat) (c : Heap) (h : Nat) (ps : List Nat)
    (hch : Chain c (some h) ps) (hlen : 2 ≤ ps.length) (hfuel : ps.length ≤ fuel) :
    ∃ s sn, splitLoop fuel c (nextAt c h) (some h) = Res.ok (some s) ∧ c s = some sn ∧
      Chain (store c s { sn with next := none }) (some h) (ps.take ((ps.length + 1) / 2)) ∧
      Chain (store c s { sn with next := none }) sn.next (ps.drop ((ps.length + 1) / 2)) := by
  match ps, hch, hlen, hfuel with
  | a :: b :: rest, hch, _, hfuel =>
    have hchS : Chain c (some h) (a :: b :: rest) := hch
    obtain ⟨hp, n, hn, hrest⟩ := hch
    have hha : h = a := Option.some.inj hp
    subst hha
    have hnx : nextAt c h = n.next := by simp [nextAt, hn]
    simp only [List.length_cons] at hfuel
    obtain ⟨r, hsplit, hr⟩ := splitLoop_spec fuel c n.next (some h) (b :: rest)
      (h :: b :: rest) hrest hchS (by simp only [List.length_cons]; omega)
      (by simp only [List.length_cons]; omega)
    have hklt : (b :: rest).length / 2 < (h :: b :: rest).length := by
      simp only [List.length_cons]; omega
    have hhalf : ((h :: b :: rest).length + 1) / 2 = (b :: rest).length / 2 + 1 := by
      simp only [List.length_cons]; omega
    rw [hhalf]
    generalize (b :: rest).length / 2 = k at hr hklt hsplit
    cases hdrop : (h :: b :: rest).drop k with
    | nil =>
      have := congrArg List.length hdrop
      simp only [List.length_drop, List.length_nil] at this
      omega
    | cons s L2 =>
      rw [hdrop] at hr
      obtain ⟨hrp, sn, hsn, _⟩ := hr
      subst hrp
      have hS : (h :: b :: rest) = (h :: b :: rest).take k ++ s :: L2 := by
        rw [← hdrop]; exact (List.take_append_drop k _).symm
      have hsplitCh : Chain c (some h) ((h :: b :: rest).take k ++ s :: L2) := by
        rw [← hS]; exact hchS
      obtain ⟨hA, hB⟩ := chain_split hsplitCh hsn
      have htake : (h :: b :: rest).take (k + 1) = (h :: b :: rest).take k ++ [s] := by
        rw [List.take_add, hdrop]; rfl
      have hdrop1 : (h :: b :: rest).drop (k + 1) = L2 := by
        rw [← List.drop_drop, hdrop]; rfl
      rw [htake, hdrop1, hnx]
      exact ⟨s, sn, hsplit, hsn, hA, hB⟩

theorem merge_null_faults (fuel : Nat) (st : State) (p : Ptr) :
    merge fuel st none p = Res.fault ∧ merge fuel st p none = Res.fault := by
  constructor
  · cases p with
    | none => simp [merge, load]
    | some a => cases hc : st.cell a <;> simp [merge, load, hc]
  · simp [merge, load]

/-- Claim C18: the split of `mergeSort` is balanced and productive.  On a chain
of `n ≥ 2` nodes `ps` the slow/fast walk stops at a live node `s`; after
`slow->next = NULL` the chain from `head` is the first `⌈n/2⌉` nodes of `ps` and
the chain from `fast` the remaining `⌊n/2⌋` nodes, both non-empty and shorter
than `n`.  Hence the two recursive calls return, each with a non-null head, the
call of `merge` on these two heads returns, and that is the result of
`mergeSort`; a `NULL` head would make `merge` fault. -/
theorem split_balanced (fuel : Nat) (st : State) (q : queue_t) (h : Nat) (ps : List Nat)
    (hq : st.q = some q) (hch : Chain st.cell (some h) ps) (hlen : 2 ≤ ps.length)
    (hfuel : ps.length ≤ fuel) :
    ∃ s sn, splitLoop fuel st.cell (nextAt st.cell h) (some h) = Res.ok (some s) ∧
      st.cell s = some sn ∧
      Chain (store st.cell s { sn with next := none }) (some h)
        (ps.take ((ps.length + 1) / 2)) ∧
      Chain (store st.cell s { sn with next := none }) sn.next
        (ps.drop ((ps.length + 1) / 2)) ∧
      (ps.take ((ps.length + 1) / 2)).length = (ps.length + 1) / 2 ∧
      (ps.drop ((ps.length + 1) / 2)).length = ps.length / 2 ∧
      0 < (ps.length + 1) / 2 ∧ 0 < ps.length / 2 ∧
      (ps.length + 1) / 2 < ps.length ∧ ps.length / 2 < ps.length ∧
      (∃ st2 a1 st3 b1 st4 p4,
        mergeSort fuel (State.mk (store st.cell s { sn with next := none }) st.brk st.q)
          (some h) = Res.ok (st2, some a1) ∧
        mergeSort fuel st2 sn.next = Res.ok (st3, some b1) ∧
        merge fuel st3 (some a1) (some b1) = Res.ok (st4, p4) ∧
        mergeSort (fuel + 1) st (some h) = Res.ok (st4, p4)) ∧
      (∀ (f : Nat) (s0 : State) (p : Ptr),
        merge f s0 none p = Res.fault ∧ merge f s0 p none = Res.fault) := by
  obtain ⟨s, sn, hsplit, hsn, hA, hB⟩ := split_spec fuel st.cell h ps hch hlen hfuel
  have hlA : (ps.take ((ps.length + 1) / 2)).length = (ps.length + 1) / 2 := by
    rw [List.length_take]; omega
  have hlB : (ps.drop ((ps.length + 1) / 2)).length = ps.length / 2 := by
    rw [List.length_drop]; omega
  refine ⟨s, sn, hsplit, hsn, hA, hB, hlA, hlB, by omega, by omega, by omega, by omega, ?_,
    fun f s0 p => merge_null_faults f s0 p⟩
  have hnd : ps.Nodup := chain_nodup hch
  have hdisj : ∀ x ∈ ps.take ((ps.length + 1) / 2), x ∉ ps.drop ((ps.length + 1) / 2) := by
    have hnd1 : (ps.take ((ps.length + 1) / 2) ++ ps.drop ((ps.length + 1) / 2)).Nodup := by
      rw [List.take_append_drop]; exact hnd
    intro x hx hx2
    exact (List.nodup_append.1 hnd1).2.2 hx hx2
  obtain ⟨st2, pA, A1, hrunA, hchA, hpermA, _, hrlA, _, t2, hq2, _, _⟩ :=
    mergeSort_spec fuel (State.mk (store st.cell s { sn with next := none }) st.brk st.q) q
      (some h) (ps.take ((ps.length + 1) / 2)) hq hA (by rw [hlA]; omega)
  have hB2 : Chain st2.cell sn.next (ps.drop ((ps.length + 1) / 2)) :=
    relink_chain hrlA (fun x hx hxA => hdisj x hxA hx) hB
  obtain ⟨st3, pB, B1, hrunB, hchB, hpermB, _, hrlB, _, t3, hq3, _, _⟩ :=
    mergeSort_spec fuel st2 _ sn.next (ps.drop ((ps.length + 1) / 2)) hq2 hB2
      (by rw [hlB]; omega)
  have hA3 : Chain st3.cell pA A1 :=
    relink_chain hrlB (fun x hx hxB => hdisj x (hpermA.subset hx) hxB) hchA
  have hlenA1 : A1.length = (ps.length + 1) / 2 := by rw [hpermA.length_eq, hlA]
  have hlenB1 : B1.length = ps.length / 2 := by rw [hpermB.length_eq, hlB]
  cases A1 with
  | nil => simp only [List.length_nil] at hlenA1; omega
  | cons a1 as1 =>
    cases B1 with
    | nil => simp only [List.length_nil] at hlenB1; omega
    | cons b1 bs1 =>
      have hpA : pA = some a1 := hchA.1
      have hpB : pB = some b1 := hchB.1
      subst hpA; subst hpB
      have hdis : ∀ x ∈ a1 :: as1, x ∉ b1 :: bs1 := fun x hx hxB =>
        hdisj x (hpermA.subset hx) (hpermB.subset hxB)
      obtain ⟨st4, p4, hrunM, _, _, _, _⟩ :=
        merge_spec fuel st3 _ a1 as1 b1 bs1 (some a1) (some b1) hq3 hA3 hchB hdis
          (by rw [hlenA1, hlenB1]; omega)
      refine ⟨st2, a1, st3, b1, st4, p4, hrunA, hrunB, hrunM, ?_⟩
      obtain ⟨n, hn, hnx⟩ : ∃ n, st.cell h = some n ∧ n.next ≠ none := by
        cases ps with
        | nil => simp at hlen
        | cons x xs =>
          cases xs with
          | nil => simp at hlen
          | cons y ys =>
            obtain ⟨hp, n, hn, hrest⟩ := hch
            have hhx : h = x := Option.some.inj hp
            refine ⟨n, by rw [hhx]; exact hn, ?_⟩
            intro e
            have : n.next = some y := hrest.1
            rw [e] at this
            exact absurd this (by simp)
      have hnat : nextAt st.cell h = n.next := by simp [nextAt, hn]
      rw [hnat] at hsplit
      simp only [mergeSort, load, hn, hnx, if_false, hsplit, hsn, setNext]
      have hst : ({ st with cell := store st.cell s { sn with next := none } } : State) =
          State.mk (store st.cell s { sn with next := none }) st.brk st.q := rfl
      rw [hst, hrunA]
      simp only [hrunB, hrunM]

/-- Witness of `split_balanced` on the chain of the three nodes of `threeQueue`. -/
theorem split_balanced_witness :
    ∃ s sn, splitLoop 3 threeQueue.cell (nextAt threeQueue.cell 0) (some 0) =
        Res.ok (some s) ∧
      threeQueue.cell s = some sn ∧
      Chain (store threeQueue.cell s { sn with next := none }) (some 0)
        ([0, 1, 2].take (([0, 1, 2].length + 1) / 2)) ∧
      Chain (store threeQueue.cell s { sn with next := none }) sn.next
        ([0, 1, 2].drop (([0, 1, 2].length + 1) / 2)) ∧
      ([0, 1, 2].take (([0, 1, 2].length + 1) / 2)).length = ([0, 1, 2].length + 1) / 2 ∧
      ([0, 1, 2].drop (([0, 1, 2].length + 1) / 2)).length = [0, 1, 2].length / 2 ∧
      0 < ([0, 1, 2].length + 1) / 2 ∧ 0 < [0, 1, 2].length / 2 ∧
      ([0, 1, 2].length + 1) / 2 < [0, 1, 2].length ∧
      [0, 1, 2].length / 2 < [0, 1, 2].length ∧
      (∃ st2 a1 st3 b1 st4 p4,
        mergeSort 3 (State.mk (store threeQueue.cell s { sn with next := none })
          threeQueue.brk threeQueue.q) (some 0) = Res.ok (st2, some a1) ∧
        mergeSort 3 st2 sn.next = Res.ok (st3, some b1) ∧
        merge 3 st3 (some a1) (some b1) = Res.ok (st4, p4) ∧
        mergeSort (3 + 1) threeQueue (some 0) = Res.ok (st4, p4)) ∧
      (∀ (f : Nat) (s0 : State) (p : Ptr),
        merge f s0 none p = Res.fault ∧ merge f s0 p none = Res.fault) :=
  split_balanced 3 threeQueue _ 0 [0, 1, 2] rfl (by decide) (by decide) (by decide)

/-! ## Size accounting -/

theorem q_insert_head_size (w : Nat) (st st1 : State) (s : CStr) (nodeOk valOk r : Bool)
    (h : q_insert_head w st s nodeOk valOk = Res.ok (r, st1)) :
    (q_size st1 : Int) = q_size st + (if r then 1 else 0) := by
  unfold q_insert_head at h
  cases hq : st.q with
  | none =>
    rw [hq] at h
    simp only [Res.ok.injEq, Prod.mk.injEq] at h
    obtain ⟨h1, h2⟩ := h
    subst h1; subst h2
    simp
  | some q =>
    rw [hq] at h
    simp only at h
    split at h
    · simp only [Res.ok.injEq, Prod.mk.injEq] at h
      obtain ⟨h1, h2⟩ := h
      subst h1; subst h2
      simp
    · split at h
      · simp only [Res.ok.injEq, Prod.mk.injEq] at h
        obtain ⟨h1, h2⟩ := h
        subst h1; subst h2
        simp
      · simp only [Res.ok.injEq, Prod.mk.injEq] at h
        obtain ⟨h1, h2⟩ := h
        subst h1; subst h2
        simp only [q_size, hq]
        split <;> simp

theorem q_insert_tail_size (w : Nat) (st st1 : State) (s : CStr) (nodeOk valOk r : Bool)
    (h : q_insert_tail w st s nodeOk valOk = Res.ok (r, st1)) :
    (q_size st1 : Int) = q_size st + (if r then 1 else 0) := by
  unfold q_insert_tail at h
  cases hq : st.q with
  | none =>
    rw [hq] at h
    simp only [Res.ok.injEq, Prod.mk.injEq] at h
    obtain ⟨h1, h2⟩ := h
    subst h1; subst h2
    simp
  | some q =>
    rw [hq] at h
    simp only at h
    split at h
    · simp only [Res.ok.injEq, Prod.mk.injEq] at h
      obtain ⟨h1, h2⟩ := h
      subst h1; subst h2
      simp
    · split at h
      · simp only [Res.ok.injEq, Prod.mk.injEq] at h
        obtain ⟨h1, h2⟩ := h
        subst h1; subst h2
        simp
      · split at h
        · simp only [Res.ok.injEq, Prod.mk.injEq] at h
          obtain ⟨h1, h2⟩ := h
          subst h1; subst h2
          simp [q_size, hq]
        · split at h
          · exact absurd h (by simp)
          · exact absurd h (by simp)
          · split at h
            · exact absurd h (by simp)
            · exact absurd h (by simp)
            · simp only [Res.ok.injEq, Prod.mk.injEq] at h
              obtain ⟨h1, h2⟩ := h
              subst h1; subst h2
              simp [q_size, hq]

theorem q_remove_head_size (w : Nat) (st st1 : State) (sp sp1 : Option (List Nat))
    (bufsize : Nat) (r : Bool)
    (h : q_remove_head w st sp bufsize = Res.ok (r, st1, sp1)) :
    (q_size st1 : Int) = q_size st + (if r then -1 else 0) := by
  unfold q_remove_head at h
  cases hq : st.q with
  | none =>
    rw [hq] at h
    simp only [Res.ok.injEq, Prod.mk.injEq] at h
    obtain ⟨h1, h2, _⟩ := h
    subst h1; subst h2
    simp
  | some q =>
    rw [hq] at h
    simp only at h
    split at h
    · simp only [Res.ok.injEq, Prod.mk.injEq] at h
      obtain ⟨h1, h2, _⟩ := h
      subst h1; subst h2
      simp
    · rename_i hnz
      split at h
      · exact absurd h (by simp)
      · split at h
        · exact absurd h (by simp)
        · split at h
          · simp only [Res.ok.injEq, Prod.mk.injEq] at h
            obtain ⟨h1, h2, _⟩ := h
            subst h1; subst h2
            simp only [q_size, hq, if_true]
            omega
          · split at h
            · exact absurd h (by simp)
            · exact absurd h (by simp)
            · split at h
              · exact absurd h (by simp)
              · exact absurd h (by simp)
              · simp only [Res.ok.injEq, Prod.mk.injEq] at h
                obtain ⟨h1, h2, _⟩ := h
                subst h1; subst h2
                simp only [q_size, hq, if_true]
                omega

theorem step_size (w fuel : Nat) (st st1 : State) (op : Op) (r : Bool)
    (hop : isInsertOrRemove op = true) (h : step w fuel st op = Res.ok (r, st1)) :
    (q_size st1 : Int) = q_size st + opDelta op r := by
  cases op with
  | insertHead s nodeOk valOk =>
    have := q_insert_head_size w st st1 s nodeOk valOk r h
    cases r <;> simpa [opDelta] using this
  | insertTail s nodeOk valOk =>
    have := q_insert_tail_size w st st1 s nodeOk valOk r h
    cases r <;> simpa [opDelta] using this
  | removeHead sp bufsize =>
    simp only [step] at h
    split at h
    · exact absurd h (by simp)
    · exact absurd h (by simp)
    · rename_i r0 st0 sp0 hrun
      simp only [Res.ok.injEq, Prod.mk.injEq] at h
      obtain ⟨h1, h2⟩ := h
      subst h1; subst h2
      have := q_remove_head_size w st st0 sp sp0 bufsize r0 hrun
      cases r0 <;> simpa [opDelta] using this
  | reverse => simp [isInsertOrRemove] at hop
  | sort => simp [isInsertOrRemove] at hop

/-- Whenever a run of insertions and removals completes, that is no call runs
into a fault, the count afterwards is the count before plus the successful
insertions minus the successful removals. -/
theorem runOps_size (w fuel : Nat) : ∀ (ops : List Op) (st st1 : State) (rs : List Bool),
    (∀ op ∈ ops, isInsertOrRemove op = true) → runOps w fuel st ops = Res.ok (rs, st1) →
    (q_size st1 : Int) = q_size st + netCount ops rs ∧ rs.length = ops.length
  | [], st, st1, rs, _, h => by
    simp only [runOps, Res.ok.injEq, Prod.mk.injEq] at h
    obtain ⟨h1, h2⟩ := h
    subst h1; subst h2
    simp [netCount]
  | op :: ops, st, st1, rs, hops, h => by
    simp only [runOps] at h
    split at h
    · exact absurd h (by simp)
    · exact absurd h (by simp)
    · rename_i r st0 hstep
      split at h
      · exact absurd h (by simp)
      · exact absurd h (by simp)
      · rename_i rs0 st2 hrest
        simp only [Res.ok.injEq, Prod.mk.injEq] at h
        obtain ⟨h1, h2⟩ := h
        subst h1; subst h2
        have h3 := step_size w fuel st st0 op r (hops op (List.mem_cons_self _ _)) hstep
        obtain ⟨h4, h5⟩ := runOps_size w fuel ops st0 st2 rs0
          (fun o ho => hops o (List.mem_cons_of_mem _ ho)) hrest
        refine ⟨?_, by simp [h5]⟩
        simp only [netCount]
        omega

/-! ## Insertion on an arbitrary state -/

/-- Claim C14, at the failing input: on a fresh queue `q_insert_tail("a")` and
`q_remove_head` return `true` and leave count 0, head `NULL` and the tail on
the freed node 0.  The run of the four calls `q_insert_tail("a")`,
`q_remove_head`, `q_insert_tail("b")`, `q_remove_head` is a fault.  This does
not hinge on the stray write of the third call: when the allocator hands out
the freed address again, the third call returns `true` with count 1 but leaves
the head `NULL`, and the fourth call then passes the guard `size == 0` and
dereferences the `NULL` head.  So the fourth call never returns and there is no
count afterwards.  (The count of the `NULL` handle is 0.) -/
theorem size_accounting_fourth_call_faults :
    ∃ st2, runOps 64 0 emptyQueue
        [Op.insertTail (bytesOf "a") true true, Op.removeHead none 0] =
          Res.ok ([true, true], st2) ∧
      q_size st2 = 0 ∧ st2.q = some (queue_t.mk none (some 0) 0) ∧ st2.cell 0 = none ∧
      runOps 64 0 emptyQueue
        [Op.insertTail (bytesOf "a") true true, Op.removeHead none 0,
          Op.insertTail (bytesOf "b") true true, Op.removeHead none 0] = Res.fault ∧
      (∃ st3, q_insert_tail 64 (State.mk st2.cell 0 st2.q) (bytesOf "b") true true =
          Res.ok (true, st3) ∧
        q_size st3 = 1 ∧ st3.q = some (queue_t.mk none (some 0) 1) ∧
        valueAt st3.cell 0 = bytesOf "b" ∧
        q_remove_head 64 st3 none 0 = Res.fault ∧
        runOps 64 0 st3 [Op.removeHead none 0] = Res.fault) ∧
      q_size (q_new (fun _ => none) 0 false) = 0 := by
  refine ⟨_, rfl, rfl, rfl, rfl, rfl, ⟨_, rfl, rfl, rfl, by decide, rfl, rfl⟩, rfl⟩

end QueueC
